import Mathlib

/-!
Shallow embedding of the poker repository: the hand evaluator (hands.py)
and the betting state machine with room orchestration (game.py), together
with theorems settling the frozen claims about them.

Conventions used throughout the embedding:
* Python `int` is modelled as `Int`; Python string slices of the deck
  (two characters per card) are modelled as `List Card` with halved
  offsets.
* Code paths on which Python raises an exception (KeyError, IndexError,
  NameError, ValueError, StopIteration, failed assert) are modelled by
  `Option`/sum results returning `none`: the surrounding store mutation is
  aborted, so no state is produced.
-/

namespace Poker

/-- A playing card: a rank character (one of "AKQJX98765432") and a suit
character (one of "SHCD"), mirroring the two-character card strings of
hands.py. -/
structure Card where
  rank : Char
  suit : Char
deriving DecidableEq, Repr

/-- Card.value from hands.py: 'A' = 12, 'K' = 11, 'Q' = 10, 'J' = 9,
'X' = 8, and any other rank character maps through ord(code) - 50, so
'9' = 7 down to '2' = 0.  (For rank characters below '2' Python would
produce a negative value; `ValidCard` excludes them.) -/
def Card.value (c : Card) : Nat :=
  if c.rank = 'A' then 12
  else if c.rank = 'K' then 11
  else if c.rank = 'Q' then 10
  else if c.rank = 'J' then 9
  else if c.rank = 'X' then 8
  else c.rank.toNat - 50

/-- The rank characters of _NUMBERS and suit characters of _SUITS in
game.py: a card built from these is what the deck can contain. -/
def ValidCard (c : Card) : Prop :=
  c.rank ∈ ['A', 'K', 'Q', 'J', 'X', '9', '8', '7', '6', '5', '4', '3', '2'] ∧
  c.suit ∈ ['S', 'H', 'C', 'D']

instance : DecidablePred ValidCard := fun _ => by unfold ValidCard; infer_instance

/-- Value.CARD of the hands.py IntEnum. -/
def Value.CARD : Nat := 1
/-- Value.PAIR of the hands.py IntEnum. -/
def Value.PAIR : Nat := 2
/-- Value.TWO_PAIRS of the hands.py IntEnum. -/
def Value.TWO_PAIRS : Nat := 3
/-- Value.SET of the hands.py IntEnum. -/
def Value.SET : Nat := 4
/-- Value.STRAIGHT of the hands.py IntEnum. -/
def Value.STRAIGHT : Nat := 5
/-- Value.FLUSH of the hands.py IntEnum. -/
def Value.FLUSH : Nat := 6
/-- Value.FULL_HOUSE of the hands.py IntEnum. -/
def Value.FULL_HOUSE : Nat := 7
/-- Value.QUAD of the hands.py IntEnum. -/
def Value.QUAD : Nat := 8
/-- Value.STRAIGHT_FLUSH of the hands.py IntEnum. -/
def Value.STRAIGHT_FLUSH : Nat := 9

/-- The Hand dataclass of hands.py: a rank category together with the five
cards backing it (stored there as a ten character string). -/
structure Hand where
  value : Nat
  cards : List Card
deriving DecidableEq, Repr

/-- Hand.sort_key from hands.py: the pair of the rank category and the list
of card values, compared lexicographically. -/
def Hand.sort_key (h : Hand) : Nat × List Nat := (h.value, h.cards.map Card.value)

/-- Hand construction: the hands.py constructor raises ValueError unless
exactly five cards (a ten character string) are supplied; `none` models
that exception. -/
def mkHand (v : Nat) (cs : List Card) : Option Hand :=
  if cs.length = 5 then some ⟨v, cs⟩ else none

/-- Bucket `v` of _get_value_groups in hands.py: the cards of value `v`
in input order (Python appends to ret[card.value] while scanning the
input). -/
def value_groups (l : List Card) (v : Nat) : List Card :=
  l.filter (fun c => c.value = v)

/-- Index wrap-around for the straight scan: Python indexes a 13-element
list, where index -1 (reached for the wheel, i = 3) denotes the last
element, the aces bucket 12. -/
def wrapIdx (j : Int) : Nat := ((j + 13) % 13).toNat

/-- The five bucket indices range(i, i-5, -1) inspected by get_straight for
top card value `i`, with the Python index -1 wrapped to 12. -/
def straight_bounds (i : Nat) : List Nat :=
  [(i : Int), (i : Int) - 1, (i : Int) - 2, (i : Int) - 3, (i : Int) - 4].map wrapIdx

/-- The descending loop of get_straight in hands.py, recursing on fuel:
fuel `n + 1` inspects top value `i = n + 3`, so starting fuel 10 scans
i = 12 down to i = 3, and fuel 0 is loop exhaustion (Python returns None).
When every bucket of the window is inhabited, the hand is built from the
first card of each bucket; that list always has five entries, so the
length guard of `mkHand` never fires here. -/
def straight_search (g : Nat → List Card) : Nat → Option Hand
  | 0 => none
  | n + 1 =>
    let i := n + 3
    let bs := straight_bounds i
    if bs.all (fun j => !(g j).isEmpty) then
      mkHand Value.STRAIGHT (bs.filterMap (fun j => (g j).head?))
    else
      straight_search g n

/-- get_straight from hands.py, applied to value buckets `g`. -/
def get_straight (g : Nat → List Card) : Option Hand :=
  straight_search g 10

/-- The per-suit card list built by get_flushes: scanning the value buckets
from 12 down to 0 and appending each card to its suit's list, so the cards
of suit `s` in descending value order (within one value, input order). -/
def suit_cards (l : List Card) (s : Char) : List Card :=
  ((List.range 13).reverse).flatMap (fun v => (value_groups l v).filter (fun c => c.suit = s))

/-- get_flushes from hands.py: the suits dict iterates in insertion order
S, H, C, D and the function returns for the first suit holding at least
five cards — a straight flush if those cards contain a straight, otherwise
the top five as a flush.  `none` means no flush was found. -/
def get_flushes (l : List Card) : Option Hand :=
  match ['S', 'H', 'C', 'D'].find? (fun s => 5 ≤ (suit_cards l s).length) with
  | none => none
  | some s =>
    let sc := suit_cards l s
    match get_straight (value_groups sc) with
    | some st => mkHand Value.STRAIGHT_FLUSH st.cards
    | none => mkHand Value.FLUSH (sc.take 5)

/-- Bucket `k` of the `lengths` array in get_matched_values: all cards
whose value bucket has exactly `k + 1` members, scanned in descending
value order.  (Python indexes lengths[len(group) - 1]; empty groups extend
lengths[-1] with nothing, which is a no-op, and groups of five or more —
impossible for duplicate-free cards — would raise IndexError.) -/
def lengths_bucket (l : List Card) (k : Nat) : List Card :=
  ((List.range 13).reverse).flatMap
    (fun v => if (value_groups l v).length = k + 1 then value_groups l v else [])

/-- The kicker scan of the quad branch of get_matched_values: walk the
buckets in ascending value order, remembering the first card of every
inhabited bucket other than the quad's; the last assignment wins.  The
result is `none` when no such bucket exists (Python: `kicker` stays
unbound and raises NameError). -/
def quad_kicker (l : List Card) (v0 : Nat) : Option Card :=
  (List.range 13).foldl
    (fun acc v =>
      match (value_groups l v).head? with
      | none => acc
      | some c => if c.value = v0 then acc else some c)
    none

/-- The non-quad arm of get_matched_values in hands.py (full house, set,
two pairs, pair, high card).  `none` models the exceptional paths: a
missing kicker (IndexError) or a hand of the wrong length (ValueError);
on every input reachable from a 5-to-9 card duplicate-free sequence the
Python code returns a Hand and this returns `some`. -/
def get_matched_below_quad (l : List Card) : Option Hand :=
  if 3 < (lengths_bucket l 2).length then
      mkHand Value.FULL_HOUSE ((lengths_bucket l 2).take 5)
  else if lengths_bucket l 2 ≠ [] ∧ lengths_bucket l 1 ≠ [] then
    mkHand Value.FULL_HOUSE (lengths_bucket l 2 ++ (lengths_bucket l 1).take 2)
  else if lengths_bucket l 2 ≠ [] then
    mkHand Value.SET (lengths_bucket l 2 ++ (lengths_bucket l 0).take 2)
  else if 4 < (lengths_bucket l 1).length then
    match (lengths_bucket l 1).get? 4, (lengths_bucket l 0).head? with
    | some a, some b =>
      mkHand Value.TWO_PAIRS
        ((lengths_bucket l 1).take 4 ++ [if a.value < b.value then b else a])
    | _, _ => none
  else if 2 < (lengths_bucket l 1).length then
    match (lengths_bucket l 0).head? with
    | some k => mkHand Value.TWO_PAIRS ((lengths_bucket l 1).take 4 ++ [k])
    | none => none
  else if lengths_bucket l 1 ≠ [] then
    mkHand Value.PAIR (lengths_bucket l 1 ++ (lengths_bucket l 0).take 3)
  else mkHand Value.CARD ((lengths_bucket l 0).take 5)

/-- get_matched_values from hands.py: the quad branch when the four-card
bucket is inhabited, and otherwise the pair/set classification of
`get_matched_below_quad` (the remainder of the same source function,
split out here by branch). -/
def get_matched_values (l : List Card) : Option Hand :=
  match lengths_bucket l 3 with
  | c0 :: _ =>
    match quad_kicker l c0.value with
    | none => none
    | some k => mkHand Value.QUAD (lengths_bucket l 3 ++ [k])
  | [] => get_matched_below_quad l

/-- find_best_hand from hands.py (the string-parsing wrapper folded into
the card-list function _find_best_hand): flushes first, then quads and
full houses from the bucket classification, then straights, and otherwise
whatever the bucket classification produced. -/
def find_best_hand (l : List Card) : Option Hand :=
  match get_flushes l with
  | some h => some h
  | none =>
    match get_matched_values l with
    | none => none
    | some m =>
      if m.value = Value.QUAD ∨ m.value = Value.FULL_HOUSE then some m
      else
        match get_straight (value_groups l) with
        | some h => some h
        | none => some m

/-- Lexicographic comparison of the card-value lists inside a sort key,
matching Python list comparison (a strict prefix is smaller). -/
def listLe : List Nat → List Nat → Bool
  | [], _ => true
  | _ :: _, [] => false
  | a :: as, b :: bs => if a < b then true else if b < a then false else listLe as bs

/-- Lexicographic comparison of Hand.sort_key pairs, matching Python tuple
comparison. -/
def keyLe (k1 k2 : Nat × List Nat) : Bool :=
  if k1.1 < k2.1 then true else if k2.1 < k1.1 then false else listLe k1.2 k2.2

/-- get_winners from hands.py: evaluate every (owner, cards) pair, sort by
sort_key descending (sorted with reverse=True is a stable descending
sort), and keep the maximal prefix of entries tied with the first.  `none`
models the exceptions: an evaluation failure, or next() on an empty
sequence (StopIteration). -/
def get_winners (hands : List (String × List Card)) : Option (List (String × Hand)) :=
  match hands.mapM (fun oc => (find_best_hand oc.2).map (fun h => (oc.1, h))) with
  | none => none
  | some evaluated =>
    match evaluated.mergeSort (fun x y => keyLe y.2.sort_key x.2.sort_key) with
    | [] => none
    | first :: it =>
      some (first :: it.takeWhile (fun x => x.2.sort_key = first.2.sort_key))

/-! Embedding of game.py: the betting state machine and room orchestration. -/

/-- The Player pydantic model of game.py: a persistent account. -/
structure Player where
  name : String
  balance : Int
  pending_balance : Int
deriving DecidableEq, Repr

/-- Player.decrement_balance: debit at most the remaining balance and
report how much was actually taken. -/
def Player.decrement_balance (p : Player) (value : Int) : Player × Int :=
  let got := min p.balance value
  ({ p with balance := p.balance - got }, got)

/-- Player.increment_balance. -/
def Player.increment_balance (p : Player) (value : Int) : Player :=
  { p with balance := p.balance + value }

/-- The PlayerInHand pydantic model of game.py: per-hand transient state.
`eligibility = none` is the folded marker. -/
structure PlayerInHand where
  session_id : String
  bet : Int
  eligibility : Option Int := some 0
  has_option : Bool := true
deriving DecidableEq, Repr

/-- The PlayerAfterGame pydantic model of game.py (hand is `none` when the
winner did not have to show). -/
structure PlayerAfterGame where
  hand : Option (List Card)
  payout : Int
deriving DecidableEq, Repr

/-- The CompletedGame pydantic model of game.py. Python stores the player
results in a dict keyed by session id; the model uses an association list
in insertion order. -/
structure CompletedGame where
  community_cards : List Card
  players : List (String × PlayerAfterGame)
deriving DecidableEq, Repr

/-- The Game pydantic model of game.py.  The deck, a string of two
characters per card there, is a card list here, so every character offset
of the source is halved. -/
structure Game where
  players : List PlayerInHand
  pot : Int
  stage : Nat
  deck : List Card
deriving DecidableEq, Repr

/-- The Room pydantic model of game.py; the session-id-to-Player dict is
an association list in insertion order. -/
structure Room where
  game : Option Game
  admin : Option String := none
  players : List (String × Player)
  blind_interval : Int := 10
  small_blind : Int := 1
  log : List CompletedGame
deriving DecidableEq, Repr

/-- Room.get_balances as a lookup function.  A session id absent from the
room would raise KeyError in Python; every session id the engine queries
is registered, and the model returns 0 for absent ids. -/
def Room.get_balances (r : Room) (sid : String) : Int :=
  ((r.players.find? (fun kp => kp.1 = sid)).map (fun kp => kp.2.balance)).getD 0

/-- REVEALED_CARDS of game.py (community cards per stage).  Stages other
than 0-3 would raise KeyError; the state machine never produces them. -/
def revealed_cards : Nat → Nat
  | 0 => 0
  | 1 => 3
  | 2 => 4
  | 3 => 5
  | _ => 0

/-- Game.community_cards: deck[4*players : 4*players + 2*revealed] in
characters, i.e. cards 2*players onward. -/
def Game.community_cards (g : Game) : List Card :=
  (g.deck.drop (g.players.length * 2)).take (revealed_cards g.stage)

/-- Game._hole_cards_idx: the two cards at character offset 4*idx. -/
def Game.hole_cards_idx (g : Game) (idx : Nat) : List Card :=
  (g.deck.drop (idx * 2)).take 2

/-- The champion scan of get_next_to_act.  Python builds cycle(players),
takes players[0] as the initial high bettor, and walks the cycle replacing
the champion on a strictly greater bet until the current champion is
revisited.  Because a champion is only replaced by a strictly greater bet,
the loop stabilises after the first full pass: the result is the first
index holding the maximal bet, which this single pass over the remaining
players computes.  `aI`/`aB` are the current champion's index and bet and
`i` the index of the head of the remaining list. -/
def champLoop : List Int → Nat → Int → Nat → Nat × Int
  | [], aI, aB, _ => (aI, aB)
  | b :: bs, aI, aB, i =>
    if aB < b then champLoop bs i b (i + 1) else champLoop bs aI aB (i + 1)

/-- The first scan of get_next_to_act over the players rotated to start
just after the high bettor: skip folded players and players with an empty
balance, return the first player betting strictly under the high bet, and
otherwise count the players who could still bet (`can_bet`). -/
def scan1 : List PlayerInHand → (String → Int) → Int → Nat → String ⊕ Nat
  | [], _, _, n => Sum.inr n
  | p :: ps, bal, mx, n =>
    if p.eligibility.isNone then scan1 ps bal mx n
    else if bal p.session_id = 0 then scan1 ps bal mx n
    else if p.bet < mx then Sum.inl p.session_id
    else scan1 ps bal mx (n + 1)

/-- Game.get_next_to_act from game.py.  An empty player list would make
next() on the cycle raise StopIteration; games always hold players. -/
def Game.get_next_to_act (g : Game) (bal : String → Int) : Option String :=
  match g.players with
  | [] => none
  | p0 :: rest =>
    let hb := champLoop (rest.map (fun p => p.bet)) 0 p0.bet 1
    let rotated := g.players.drop (hb.1 + 1) ++ g.players.take (hb.1 + 1)
    match scan1 rotated bal hb.2 0 with
    | Sum.inl sid => some sid
    | Sum.inr can_bet =>
      if 2 ≤ can_bet then
        (g.players.find? (fun p =>
          p.has_option && p.eligibility.isSome && bal p.session_id != 0)).map
          (fun p => p.session_id)
      else none

/-- Game._should_do_more_betting_rounds: at least two players have not
folded. -/
def Game.should_do_more_betting_rounds (g : Game) : Bool :=
  2 ≤ g.players.countP (fun p => p.eligibility.isSome)

/-- The pass of Game._finalize_betting over the bet-sorted player list:
`cumulative` accumulates the bets already seen and `bets_above` counts the
players not yet seen (their bets are at least as large).  Every player's
round bet is reset and the option restored; a non-folded player's
eligibility grows by cumulative + bet * bets_above.  Also counts the
non-folded players (the return value of _finalize_betting). -/
def finalize_pass : List PlayerInHand → Int → Nat → List PlayerInHand × Nat
  | [], _, _ => ([], 0)
  | p :: rest, cumulative, bets_above =>
    let round_bet := p.bet
    let p' : PlayerInHand :=
      { p with bet := 0, has_option := true,
               eligibility := p.eligibility.map (fun e => e + (cumulative + round_bet * (bets_above : Int))) }
    let tail := finalize_pass rest (cumulative + round_bet) (bets_above - 1)
    (p' :: tail.1, (if p.eligibility.isSome then 1 else 0) + tail.2)

/-- Game._finalize_betting from game.py.  Python sorts a copy of the
players by bet and mutates the shared player objects in place, so the
players list keeps its seat order while every player receives the update
computed at its position in the sorted copy.  The model replays that: the
pass runs over the sorted list and each seat is replaced by the updated
player carrying its session id (session ids are unique in a game, which
makes the keyed reconstruction exact). -/
def Game.finalize_betting (g : Game) : Game × Nat :=
  let sorted := g.players.mergeSort (fun a b => a.bet ≤ b.bet)
  let pass := finalize_pass sorted 0 sorted.length
  ({ g with players := g.players.map (fun p =>
      ((pass.1.find? (fun q => q.session_id = p.session_id)).getD
        { p with bet := 0, has_option := true })) },
   pass.2)

/-- Game._check_can_bet: the session must be the one named by
get_next_to_act (comparison with None is never equal, as in Python). -/
def Game.check_can_bet (g : Game) (bal : String → Int) (sid : String) : Bool :=
  g.get_next_to_act bal == some sid

/-- Update the first player with the given session id (Python's
get_player returns the first match and the caller mutates it). -/
def updateFirstPlayer : List PlayerInHand → String → (PlayerInHand → PlayerInHand) → List PlayerInHand
  | [], _, _ => []
  | p :: ps, sid, f =>
    if p.session_id = sid then f p :: ps else p :: updateFirstPlayer ps sid f

/-- Update the first entry of an association list holding the given key. -/
def updateFirstAssoc {α : Type} : List (String × α) → String → (α → α) → List (String × α)
  | [], _, _ => []
  | kp :: ps, k, f =>
    if kp.1 = k then (kp.1, f kp.2) :: ps else kp :: updateFirstAssoc ps k f

/-- Game.fold from game.py: a no-op unless the session is next to act;
otherwise mark the bettor folded and clear the option. -/
def Game.fold (g : Game) (bal : String → Int) (sid : String) : Game :=
  if g.check_can_bet bal sid then
    { g with players := (updateFirstPlayer g.players sid
        (fun p => { p with eligibility := none, has_option := false })) }
  else g

/-- Result of Game._bet: `err` models the exceptional paths (the bettor or
the account missing, both impossible through Game.bet), `rejected` the
explicit `return None` paths, `ok` a performed bet with the amount taken. -/
inductive BetOutcome
  | err
  | rejected
  | ok (g : Game) (room : Room) (got : Int)
deriving DecidableEq, Repr

/-- Game._bet from game.py: `needed` tops the round bet up to `value`; a
negative top-up is rejected; a value below the table's maximum bet is
rejected unless the maximum exceeds the bettor's account balance; then the
account is debited by at most its balance, and the round bet and pot grow
by the amount taken while the option is cleared. -/
def Game.betInner (g : Game) (room : Room) (sid : String) (value : Int) : BetOutcome :=
  match g.players.find? (fun p => p.session_id = sid) with
  | none => BetOutcome.err
  | some bettor =>
    if value - bettor.bet < 0 then BetOutcome.rejected
    else
      match (g.players.map (fun p => p.bet)).max? with
      | none => BetOutcome.err
      | some min_bet =>
        match room.players.find? (fun kp => kp.1 = sid) with
        | none => BetOutcome.err
        | some acct =>
          if value < min_bet ∧ ¬ (acct.2.balance < min_bet) then BetOutcome.rejected
          else
            BetOutcome.ok
              { g with
                players := (updateFirstPlayer g.players sid (fun p =>
                  { p with bet := p.bet + min acct.2.balance (value - bettor.bet),
                           has_option := false })),
                pot := g.pot + min acct.2.balance (value - bettor.bet) }
              { room with players := (updateFirstAssoc room.players sid (fun p =>
                  { p with balance := p.balance - min acct.2.balance (value - bettor.bet) })) }
              (min acct.2.balance (value - bettor.bet))

/-- Game.bet from game.py: silently ignore an out-of-turn bet, perform the
bet otherwise; a rejected bet leaves everything unchanged (the result of
_bet is discarded).  `none` models the exceptional paths of _bet. -/
def Game.betAction (g : Game) (room : Room) (sid : String) (value : Int) : Option (Game × Room) :=
  if g.check_can_bet room.get_balances sid then
    match g.betInner room sid value with
    | BetOutcome.err => none
    | BetOutcome.rejected => some (g, room)
    | BetOutcome.ok g' room' _ => some (g', room')
  else some (g, room)

/-- One entry of the final_hands dict of Game.pay_winners: the session id,
the copied player's eligibility (non-folded and positive by construction
of _get_final_hands, so stored as a plain Int), and the community and hole
cards used at showdown. -/
structure FinalEntry where
  sid : String
  elig : Int
  community : List Card
  hole : List Card
deriving DecidableEq, Repr

/-- Game._get_final_hands: every non-folded player with positive
eligibility, paired with the community cards and its hole cards. -/
def Game.final_hands (g : Game) : List FinalEntry :=
  g.players.enum.filterMap (fun ip =>
    match ip.2.eligibility with
    | none => none
    | some e =>
      if e ≤ 0 then none
      else some ⟨ip.2.session_id, e, g.community_cards, g.hole_cards_idx ip.1⟩)

/-- The mutable state of the payout loop of Game.pay_winners. -/
structure PayState where
  pot : Int
  final_hands : List FinalEntry
  completed : List (String × PlayerAfterGame)
  accounts : List (String × Player)
deriving DecidableEq, Repr

/-- The winning_players computation of one payout round: the sole
contender when only one remains, otherwise the owners returned by
get_winners.  `none` models the exceptions inside get_winners. -/
def roundWinners (st : PayState) : Option (List String) :=
  if st.final_hands.length = 1 then some (st.final_hands.map (fun e => e.sid))
  else (get_winners (st.final_hands.map (fun e => (e.sid, e.community ++ e.hole)))).map
    (fun ws => ws.map (fun w => w.1))

/-- The eligibilities final_hands[s][0].eligibility looked up for the
winning players; a missing key (KeyError) yields `none`. -/
def roundEligs (st : PayState) (ws : List String) : Option (List Int) :=
  ws.mapM (fun w => (st.final_hands.find? (fun e => e.sid = w)).map (fun e => e.elig))

/-- pay_player inside Game.pay_winners: record the winner's revealed hand
(only when more than one contender remains), create its CompletedGame
entry on first payment, and credit both the recorded payout and the
account balance.  `none` models the KeyErrors of the dict lookups. -/
def pay_player (final_hands : List FinalEntry)
    (completed : List (String × PlayerAfterGame)) (accounts : List (String × Player))
    (sid : String) (amount : Int) :
    Option (List (String × PlayerAfterGame) × List (String × Player)) :=
  match (if 1 < final_hands.length then
      (final_hands.find? (fun e => e.sid = sid)).map (fun e => some e.hole)
    else some none) with
  | none => none
  | some hand =>
    match accounts.find? (fun kp => kp.1 = sid) with
    | none => none
    | some _ =>
      some (updateFirstAssoc
              (if (completed.find? (fun kp => kp.1 = sid)).isSome then completed
               else completed ++ [(sid, ⟨hand, 0⟩)])
              sid (fun pa => { pa with payout := pa.payout + amount }),
            updateFirstAssoc accounts sid (fun p => p.increment_balance amount))

/-- The `for s_id in winning_players` loop of one payout round: pay each
winner, then decrement every remaining contender's eligibility by the
amount, appending every contender at or below zero to `eliminated` (a
contender already at or below zero is appended again on the next winner's
pass), and shrink the pot by the amount. -/
def pay_winners_pass : List String → PayState → Int → List String → Option (PayState × List String)
  | [], st, _, elim => some (st, elim)
  | w :: ws, st, amount, elim =>
    match pay_player st.final_hands st.completed st.accounts w amount with
    | none => none
    | some ca =>
      let fh' := st.final_hands.map (fun e => { e with elig := e.elig - amount })
      let elim' := elim ++ (fh'.filter (fun e => e.elig ≤ 0)).map (fun e => e.sid)
      pay_winners_pass ws
        { pot := st.pot - amount, final_hands := fh', completed := ca.1, accounts := ca.2 }
        amount elim'

/-- Deletion of one key from final_hands; a missing key raises KeyError
(`none`), which the duplicate appends of the elimination list can reach. -/
def delFirstEntry : List FinalEntry → String → Option (List FinalEntry)
  | [], _ => none
  | e :: es, sid =>
    if e.sid = sid then some es
    else (delFirstEntry es sid).map (fun es' => e :: es')

/-- The `for p_elim in eliminated: del final_hands[p_elim]` loop. -/
def delAll (fh : List FinalEntry) : List String → Option (List FinalEntry)
  | [] => some fh
  | sid :: sids => (delFirstEntry fh sid).bind (fun fh' => delAll fh' sids)

/-- Result of one iteration of the payout while-loop: `done` is the early
`return` on a zero amount (the remainder stays in the pot), `step` is a
completed iteration. -/
inductive PayRes
  | done (st : PayState)
  | step (st : PayState)
deriving DecidableEq, Repr

/-- One iteration of the while-loop of Game.pay_winners: determine the
winners, compute amount = min(eligibility of the winners) // len(winners)
(Python floor division, hence Int.fdiv), return early when it is zero, and
otherwise pay every winner and delete the eliminated contenders. -/
def payRound (st : PayState) : Option PayRes :=
  match roundWinners st with
  | none => none
  | some ws =>
    match roundEligs st ws with
    | none => none
    | some eligs =>
      match eligs.min? with
      | none => none
      | some m =>
        if m.fdiv (ws.length : Int) = 0 then some (PayRes.done st)
        else
          match pay_winners_pass ws st (m.fdiv (ws.length : Int)) [] with
          | none => none
          | some st1 =>
            (delAll st1.1.final_hands st1.2).map
              (fun fh2 => PayRes.step { st1.1 with final_hands := fh2 })

/-- The while-loop of Game.pay_winners with its max_payouts guard: the
loop may complete at most as many iterations as there were contenders
(starting fuel), one more failing the `assert max_payouts >= 0`; on exit
with a non-positive pot the `assert self.pot == 0` must hold.  `none`
models a failed assertion or an exception. -/
def pay_loop : Nat → PayState → Option PayState
  | 0, st => if st.pot ≤ 0 then (if st.pot = 0 then some st else none) else none
  | fuel + 1, st =>
    if st.pot ≤ 0 then (if st.pot = 0 then some st else none)
    else
      match payRound st with
      | none => none
      | some (PayRes.done st') => some st'
      | some (PayRes.step st') => pay_loop fuel st'

/-- Game.pay_winners from game.py: build the CompletedGame record and the
final_hands dict, run the payout loop, and return the game with its
remaining pot together with the room carrying the updated balances and the
appended hand record.  (Python appends the record before the loop and
mutates it in place; the model appends the final record.) -/
def Game.pay_winners (g : Game) (room : Room) : Option (Game × Room) :=
  (pay_loop g.final_hands.length ⟨g.pot, g.final_hands, [], room.players⟩).map (fun stF =>
    ({ g with pot := stF.pot },
     { room with players := stF.accounts,
                 log := room.log ++ [⟨g.community_cards, stF.completed⟩] }))

/-- The while-loop of Game.advance_state: while nobody is next to act,
finalize the betting round; stop after the river, when at most one player
remains unfolded, or when no further betting rounds are due; otherwise
advance the stage and repeat.  Returns the advanced game and whether the
loop exited by `return` (someone is next to act) rather than `break`.
Fuel bounds the loop (the stage grows every iteration, so 5 suffices);
`none` is unreachable with enough fuel. -/
def advance_loop (bal : String → Int) : Nat → Game → Option (Game × Bool)
  | 0, _ => none
  | fuel + 1, g =>
    match g.get_next_to_act bal with
    | some _ => some (g, true)
    | none =>
      if (g.finalize_betting).2 < 2 then some ((g.finalize_betting).1, false)
      else if (g.finalize_betting).1.stage = 3 then some ((g.finalize_betting).1, false)
      else if ¬ (g.finalize_betting).1.should_do_more_betting_rounds then
        some ((g.finalize_betting).1, false)
      else advance_loop bal fuel
        { (g.finalize_betting).1 with stage := (g.finalize_betting).1.stage + 1 }

/-- Game.advance_state from game.py, parameterised by `new_game`, the
Room.new_game call that closes the hand: it shuffles pending players into
the seat order and draws a fresh random deck, so the (deterministic)
embedding abstracts it as a function of the finished game and the room.
On the early `return` (someone is next to act) the room is returned with
the current game and neither pay_winners nor new_game runs. -/
def Game.advance_state (g : Game) (room : Room)
    (new_game : Game → Room → Room) (fuel : Nat) : Option Room :=
  match advance_loop room.get_balances fuel g with
  | none => none
  | some (g', true) => some { room with game := some g' }
  | some (g', false) =>
    (g'.pay_winners { room with game := some g' }).map
      (fun gr => new_game gr.1 gr.2)

/-- The module-level fold action of game.py: room.game.fold (an
AttributeError when no game is live, hence `none`) followed by
advance_state on the same game object. -/
def fold_action (room : Room) (sid : String)
    (new_game : Game → Room → Room) (fuel : Nat) : Option Room :=
  match room.game with
  | none => none
  | some g =>
    let g' := g.fold room.get_balances sid
    g'.advance_state { room with game := some g' } new_game fuel

/-! Registration (the register function of game.py). -/

/-- The _DISALLOWED_CHARACTERS set of game.py: the C0 and C1 control
characters (with DEL) and the Unicode separators listed there. -/
def disallowed_char (c : Char) : Bool :=
  let n := c.toNat
  (n ≤ 0x1f) || (0x7f ≤ n && n ≤ 0x9f) || (n = 0xa0) || (n = 0x1680) ||
    (0x2000 ≤ n && n ≤ 0x200a) || (n = 0x2028) || (n = 0x2029) ||
    (n = 0x202f) || (n = 0x205f) || (n = 0x3000)

/-- The CannotRegister failures of register in game.py. -/
inductive RegError
  | disallowedChars
  | nameTooLong
  | nameTaken
  | roomFull
deriving DecidableEq, Repr

/-- register from game.py, taking the room state read by the store
(`none` is the NOT_PRESENT sentinel) and the already NFKC-normalised
player name.  Validation order follows the source: disallowed characters,
length over 64, a fresh room created with the caller as admin, duplicate
name among other sessions, rename of an existing session, the room size
check, and finally insertion (with the admin defaulting to the caller when
unset or falsy, i.e. the empty string). -/
def register (state : Option Room) (sid name : String) : Except RegError Room :=
  if name.data.any disallowed_char then Except.error RegError.disallowedChars
  else if 64 < name.length then Except.error RegError.nameTooLong
  else
    let st := state.getD { game := none, admin := some sid, players := [], log := [] }
    if st.players.any (fun kp => kp.1 ≠ sid ∧ kp.2.name = name) then
      Except.error RegError.nameTaken
    else if (st.players.find? (fun kp => kp.1 = sid)).isSome then
      Except.ok { st with players := updateFirstAssoc st.players sid (fun p => { p with name := name }) }
    else if 10 < st.players.length then Except.error RegError.roomFull
    else
      Except.ok { st with
        players := st.players ++ [(sid, ⟨name, 0, 0⟩)],
        admin := match st.admin with
          | none => some sid
          | some a => if a = "" then some sid else some a }

/-- The payout recorded for a session in a CompletedGame player table
(0 when the session has no entry). -/
def payoutIn (completed : List (String × PlayerAfterGame)) (sid : String) : Int :=
  ((completed.find? (fun kp => kp.1 = sid)).map (fun kp => kp.2.payout)).getD 0

/-- Total of the payouts recorded in a CompletedGame player table. -/
def paySum (completed : List (String × PlayerAfterGame)) : Int :=
  (completed.map (fun kp => kp.2.payout)).sum

/-- Total of the account balances of a room's player table. -/
def balSum (accounts : List (String × Player)) : Int :=
  (accounts.map (fun kp => kp.2.balance)).sum

/-- The next-to-act selection as the amended specification describes it:
scanning in rotation from just after the first player holding the maximal
bet, the first not-folded, funded player betting strictly under the
maximum; once all active bets are equal, the first player (in seat order)
with the option flag still set, provided at least two not-folded, funded
players remain; otherwise nobody. -/
def next_to_act_described (g : Game) (bal : String → Int) : Option String :=
  match (g.players.map (fun p => p.bet)).max? with
  | none => none
  | some mx =>
    match g.players.findIdx? (fun p => p.bet == mx) with
    | none => none
    | some hb =>
      let rotated := g.players.drop (hb + 1) ++ g.players.take (hb + 1)
      match rotated.find? (fun p =>
          p.eligibility.isSome && bal p.session_id != 0 && decide (p.bet < mx)) with
      | some p => some p.session_id
      | none =>
        if 2 ≤ g.players.countP (fun p => p.eligibility.isSome && bal p.session_id != 0) then
          (g.players.find? (fun p =>
            p.has_option && p.eligibility.isSome && bal p.session_id != 0)).map
            (fun p => p.session_id)
        else none

/-! Helper lemmas about the evaluator. -/

theorem value_groups_head_value {l : List Card} {v : Nat} {c : Card}
    (h : (value_groups l v).head? = some c) : c.value = v := by
  have hm : c ∈ value_groups l v := List.mem_of_mem_head? (by simp [h])
  have := List.mem_filter.mp hm
  simpa using this.2

theorem straight_search_hit (l : List Card) (n : Nat)
    (hall : ∀ j ∈ straight_bounds (n + 3), value_groups l j ≠ []) :
    ∃ h, straight_search (value_groups l) (n + 1) = some h ∧
      h.value = Value.STRAIGHT ∧ h.cards.map Card.value = straight_bounds (n + 3) := by
  have hcond : (straight_bounds (n + 3)).all (fun j => !(value_groups l j).isEmpty) = true := by
    rw [List.all_eq_true]
    intro j hj
    simpa using hall j hj
  have hmap : ∀ j ∈ straight_bounds (n + 3),
      ((value_groups l j).head?).map Card.value = some j := by
    intro j hj
    cases hh : (value_groups l j).head? with
    | none => exact absurd (List.head?_eq_none_iff.mp hh) (hall j hj)
    | some c => simp [value_groups_head_value hh]
  have hcards :
      ((straight_bounds (n + 3)).filterMap (fun j => (value_groups l j).head?)).map Card.value
        = straight_bounds (n + 3) := by
    rw [List.map_filterMap]
    rw [List.filterMap_congr (fun x hx => hmap x hx)]
    simp
  have hlen :
      ((straight_bounds (n + 3)).filterMap (fun j => (value_groups l j).head?)).length = 5 := by
    have := congrArg List.length hcards
    simpa [straight_bounds] using this
  refine ⟨⟨Value.STRAIGHT, (straight_bounds (n + 3)).filterMap (fun j => (value_groups l j).head?)⟩, ?_, rfl, hcards⟩
  simp only [straight_search, hcond, if_true, mkHand, hlen]

theorem straight_search_skip (g : Nat → List Card) (n : Nat) (j0 : Nat)
    (hj : j0 ∈ straight_bounds (n + 3)) (he : g j0 = []) :
    straight_search g (n + 1) = straight_search g n := by
  have hcond : (straight_bounds (n + 3)).all (fun j => !(g j).isEmpty) = false := by
    rw [List.all_eq_false]
    exact ⟨j0, hj, by simp [he]⟩
  simp only [straight_search, hcond, Bool.false_eq_true, if_false]

/-- C6: get_straight recognises an ace both as the top card of a straight
(A-K-Q-J-10, scanned first, hence preferred when both orientations are
present) and as the bottom card of the wheel 5-4-3-2-A (via the wrapped
index -1): when the buckets contain both orientations the ace-high
straight is returned, and when they contain only the wheel a straight is
still returned. -/
theorem c6_ace_high_and_low :
    (∀ l : List Card,
      (∀ v ∈ [12, 11, 10, 9, 8], value_groups l v ≠ []) →
      (∀ v ∈ [3, 2, 1, 0], value_groups l v ≠ []) →
      ∃ h, get_straight (value_groups l) = some h ∧ h.value = Value.STRAIGHT ∧
        h.cards.map Card.value = [12, 11, 10, 9, 8]) ∧
    (∀ l : List Card,
      (∀ v ∈ [3, 2, 1, 0, 12], value_groups l v ≠ []) →
      (∀ v ∈ [4, 5, 6, 7, 8, 9, 10, 11], value_groups l v = []) →
      ∃ h, get_straight (value_groups l) = some h ∧ h.value = Value.STRAIGHT ∧
        h.cards.map Card.value = [3, 2, 1, 0, 12]) := by
  have hb12 : straight_bounds 12 = [12, 11, 10, 9, 8] := by decide
  have hb3 : straight_bounds 3 = [3, 2, 1, 0, 12] := by decide
  constructor
  · intro l hhi _
    have hall : ∀ j ∈ straight_bounds (9 + 3), value_groups l j ≠ [] := by
      intro j hj
      exact hhi j (by simpa [hb12] using hj)
    obtain ⟨h, heq, hv, hc⟩ := straight_search_hit l 9 hall
    exact ⟨h, heq, hv, by simpa [hb12] using hc⟩
  · intro l hwheel hempty
    have s9 := straight_search_skip (value_groups l) 9 11 (by decide) (hempty 11 (by decide))
    have s8 := straight_search_skip (value_groups l) 8 11 (by decide) (hempty 11 (by decide))
    have s7 := straight_search_skip (value_groups l) 7 10 (by decide) (hempty 10 (by decide))
    have s6 := straight_search_skip (value_groups l) 6 9 (by decide) (hempty 9 (by decide))
    have s5 := straight_search_skip (value_groups l) 5 8 (by decide) (hempty 8 (by decide))
    have s4 := straight_search_skip (value_groups l) 4 7 (by decide) (hempty 7 (by decide))
    have s3 := straight_search_skip (value_groups l) 3 6 (by decide) (hempty 6 (by decide))
    have s2 := straight_search_skip (value_groups l) 2 5 (by decide) (hempty 5 (by decide))
    have s1 := straight_search_skip (value_groups l) 1 4 (by decide) (hempty 4 (by decide))
    have hall : ∀ j ∈ straight_bounds (0 + 3), value_groups l j ≠ [] := by
      intro j hj
      exact hwheel j (by simpa [hb3] using hj)
    obtain ⟨h, heq, hv, hc⟩ := straight_search_hit l 0 hall
    refine ⟨h, ?_, hv, by simpa [hb3] using hc⟩
    calc get_straight (value_groups l)
        = straight_search (value_groups l) 10 := rfl
      _ = straight_search (value_groups l) 1 := by
          rw [s9, s8, s7, s6, s5, s4, s3, s2, s1]
      _ = some h := heq

/-- Witness for c6_ace_high_and_low: a nine-card hand holding both an
ace-high straight and a wheel, and a five-card wheel-only hand. -/
theorem c6_ace_high_and_low_witness :
    (∃ h, get_straight (value_groups
        [⟨'A', 'S'⟩, ⟨'K', 'H'⟩, ⟨'Q', 'D'⟩, ⟨'J', 'C'⟩, ⟨'X', 'S'⟩,
         ⟨'5', 'H'⟩, ⟨'4', 'D'⟩, ⟨'3', 'C'⟩, ⟨'2', 'S'⟩]) = some h ∧
      h.value = Value.STRAIGHT ∧ h.cards.map Card.value = [12, 11, 10, 9, 8]) ∧
    (∃ h, get_straight (value_groups
        [⟨'5', 'H'⟩, ⟨'4', 'D'⟩, ⟨'3', 'C'⟩, ⟨'2', 'S'⟩, ⟨'A', 'S'⟩]) = some h ∧
      h.value = Value.STRAIGHT ∧ h.cards.map Card.value = [3, 2, 1, 0, 12]) :=
  ⟨c6_ace_high_and_low.1 _ (by decide) (by decide),
   c6_ace_high_and_low.2 _ (by decide) (by decide)⟩

/-! Helper lemmas about association-list updates. -/

theorem updateFirstAssoc_length {α : Type} (l : List (String × α)) (k : String) (f : α → α) :
    (updateFirstAssoc l k f).length = l.length := by
  induction l with
  | nil => rfl
  | cons kp ps ih =>
    by_cases h : kp.1 = k <;> simp [updateFirstAssoc, h, ih]

theorem updateFirstAssoc_find?_ne {α : Type} (l : List (String × α)) (k : String) (f : α → α)
    (k' : String) (hne : k' ≠ k) :
    (updateFirstAssoc l k f).find? (fun kp => kp.1 = k') = l.find? (fun kp => kp.1 = k') := by
  induction l with
  | nil => rfl
  | cons kp ps ih =>
    by_cases h : kp.1 = k
    · have h2 : ¬ kp.1 = k' := fun hk => hne (hk ▸ h)
      simp only [updateFirstAssoc, if_pos h]
      rw [List.find?_cons_of_neg _ (by simpa using h2),
          List.find?_cons_of_neg _ (by simpa using h2)]
    · simp only [updateFirstAssoc, if_neg h]
      by_cases h3 : kp.1 = k'
      · rw [List.find?_cons_of_pos _ (by simpa using h3), List.find?_cons_of_pos _ (by simpa using h3)]
      · rw [List.find?_cons_of_neg _ (by simpa using h3), List.find?_cons_of_neg _ (by simpa using h3), ih]

theorem updateFirstAssoc_find?_self {α : Type} (l : List (String × α)) (k : String) (f : α → α)
    (kp : String × α) (h : l.find? (fun q => q.1 = k) = some kp) :
    (updateFirstAssoc l k f).find? (fun q => q.1 = k) = some (kp.1, f kp.2) := by
  induction l with
  | nil => simp at h
  | cons q ps ih =>
    by_cases hq : q.1 = k
    · rw [List.find?_cons_of_pos _ (by simpa using hq)] at h
      obtain rfl : q = kp := by injection h
      simp only [updateFirstAssoc, if_pos hq]
      rw [List.find?_cons_of_pos _ (by simpa using hq)]
    · rw [List.find?_cons_of_neg _ (by simpa using hq)] at h
      simp only [updateFirstAssoc, if_neg hq]
      rw [List.find?_cons_of_neg _ (by simpa using hq)]
      exact ih h

/-! Claim C9: folding out of turn is a complete no-op. -/

/-- C9: when a live game names some player `p` as next to act and a
different session folds, Game.fold checks _check_can_bet and declines to
mutate, and the advance_state call that follows returns at once because a
player is still next to act: the room (balances, pot, stage, eligibility,
option flags, log) is returned exactly unchanged, for any new_game
behaviour and any positive loop fuel; being the identity, the action is
idempotent. -/
theorem c9_fold_out_of_turn_noop (room : Room) (g : Game) (p sid : String)
    (ng : Game → Room → Room) (fuel : Nat)
    (hg : room.game = some g)
    (hnext : g.get_next_to_act room.get_balances = some p)
    (hsid : sid ≠ p) :
    fold_action room sid ng (fuel + 1) = some room := by
  have hcheck : g.check_can_bet room.get_balances sid = false := by
    simp only [Game.check_can_bet, hnext]
    rw [beq_eq_false_iff_ne]
    intro h
    injection h with h2
    exact hsid h2.symm
  have hfold : g.fold room.get_balances sid = g := by
    simp [Game.fold, hcheck]
  have hroom : { room with game := some g } = room := by
    obtain ⟨gf, a, ps, bi, sb, lg⟩ := room
    simp only at hg
    rw [hg]
  unfold fold_action
  rw [hg]
  simp only [hfold]
  unfold Game.advance_state
  have hbal : ({ room with game := some g } : Room).get_balances = room.get_balances := rfl
  simp only [hbal, advance_loop, hnext, hroom]

/-- Witness for c9_fold_out_of_turn_noop: a concrete two-player room in
which "a" is next to act and "b" folds out of turn. -/
theorem c9_fold_out_of_turn_noop_witness :
    fold_action
      ⟨some ⟨[⟨"a", 0, some 0, true⟩, ⟨"b", 2, some 0, false⟩], 2, 0, []⟩, some "a",
       [("a", ⟨"pa", 10, 0⟩), ("b", ⟨"pb", 10, 0⟩)], 10, 1, []⟩
      "b" (fun _ r => r) 1 =
    some ⟨some ⟨[⟨"a", 0, some 0, true⟩, ⟨"b", 2, some 0, false⟩], 2, 0, []⟩, some "a",
       [("a", ⟨"pa", 10, 0⟩), ("b", ⟨"pb", 10, 0⟩)], 10, 1, []⟩ :=
  c9_fold_out_of_turn_noop _ _ "a" "b" _ 0 rfl (by decide) (by decide)

/-! Claim C10: register with an already-registered session renames only. -/

/-- C10: calling register with a session id already present in the room
never fails with the room-size error (the rename branch precedes the size
check), and on success only that player's name changes: the admin, game,
log, blind fields, player count, every other player's entry, and the
renamed player's balance are unchanged while its name becomes the new
name. -/
theorem c10_register_rename (st : Room) (sid name : String)
    (hmem : (st.players.find? (fun kp => kp.1 = sid)).isSome) :
    (register (some st) sid name ≠ Except.error RegError.roomFull) ∧
    (∀ r, register (some st) sid name = Except.ok r →
      r.admin = st.admin ∧ r.game = st.game ∧ r.log = st.log ∧
      r.blind_interval = st.blind_interval ∧ r.small_blind = st.small_blind ∧
      r.players.length = st.players.length ∧
      (∀ k, k ≠ sid →
        r.players.find? (fun kp => kp.1 = k) = st.players.find? (fun kp => kp.1 = k)) ∧
      ((r.players.find? (fun kp => kp.1 = sid)).map (fun kp => kp.2.balance)
        = (st.players.find? (fun kp => kp.1 = sid)).map (fun kp => kp.2.balance)) ∧
      ((r.players.find? (fun kp => kp.1 = sid)).map (fun kp => kp.2.name) = some name)) := by
  have hreg : register (some st) sid name =
      (if name.data.any disallowed_char then Except.error RegError.disallowedChars
       else if 64 < name.length then Except.error RegError.nameTooLong
       else if st.players.any (fun kp => kp.1 ≠ sid ∧ kp.2.name = name) then
         Except.error RegError.nameTaken
       else Except.ok { st with players := (updateFirstAssoc st.players sid
         (fun p => { p with name := name })) }) := by
    unfold register
    simp only [Option.getD_some, hmem, if_true]
  constructor
  · rw [hreg]
    split_ifs
    · intro h
      injection h with h
      exact RegError.noConfusion h
    · intro h
      injection h with h
      exact RegError.noConfusion h
    · intro h
      injection h with h
      exact RegError.noConfusion h
    · intro h
      exact Except.noConfusion h
  · rw [hreg]
    split_ifs
    · intro r hr
      simp at hr
    · intro r hr
      simp at hr
    · intro r hr
      simp at hr
    · intro r hr
      obtain rfl : ({ st with players := (updateFirstAssoc st.players sid
          (fun p => { p with name := name })) } : Room) = r := by injection hr
      obtain ⟨kp, hkp⟩ := Option.isSome_iff_exists.mp hmem
      refine ⟨rfl, rfl, rfl, rfl, rfl, updateFirstAssoc_length _ _ _, ?_, ?_, ?_⟩
      · intro k hk
        exact updateFirstAssoc_find?_ne _ _ _ _ hk
      · rw [updateFirstAssoc_find?_self _ _ _ _ hkp, hkp]
        rfl
      · rw [updateFirstAssoc_find?_self _ _ _ _ hkp]
        rfl

/-- Witness for c10_register_rename: renaming "s1" in a two-player room. -/
theorem c10_register_rename_witness :
    (register (some ⟨none, some "s1",
        [("s1", ⟨"old", 7, 0⟩), ("s2", ⟨"peer", 5, 0⟩)], 10, 1, []⟩) "s1" "renamed"
      ≠ Except.error RegError.roomFull) ∧
    (∀ r, register (some ⟨none, some "s1",
        [("s1", ⟨"old", 7, 0⟩), ("s2", ⟨"peer", 5, 0⟩)], 10, 1, []⟩) "s1" "renamed"
        = Except.ok r →
      r.admin = some "s1" ∧ r.game = none ∧ r.log = [] ∧
      r.blind_interval = 10 ∧ r.small_blind = 1 ∧
      r.players.length = 2 ∧
      (∀ k, k ≠ "s1" →
        r.players.find? (fun kp => kp.1 = k)
          = ([("s1", (⟨"old", 7, 0⟩ : Player)), ("s2", ⟨"peer", 5, 0⟩)]).find? (fun kp => kp.1 = k)) ∧
      ((r.players.find? (fun kp => kp.1 = "s1")).map (fun kp => kp.2.balance) = some 7) ∧
      ((r.players.find? (fun kp => kp.1 = "s1")).map (fun kp => kp.2.name) = some "renamed")) :=
  c10_register_rename ⟨none, some "s1",
    [("s1", ⟨"old", 7, 0⟩), ("s2", ⟨"peer", 5, 0⟩)], 10, 1, []⟩ "s1" "renamed" (by decide)

/-! Claim C8: the room size cap. -/

/-- Counterexample to C8: register checks `len(state.players) > 10`, so a
room that already contains exactly 10 registered players still accepts a
fresh session, reaching 11 players. -/
theorem c8_counterexample :
    (register (some ⟨none, some "s1",
        [("s1", ⟨"n1", 0, 0⟩), ("s2", ⟨"n2", 0, 0⟩), ("s3", ⟨"n3", 0, 0⟩),
         ("s4", ⟨"n4", 0, 0⟩), ("s5", ⟨"n5", 0, 0⟩), ("s6", ⟨"n6", 0, 0⟩),
         ("s7", ⟨"n7", 0, 0⟩), ("s8", ⟨"n8", 0, 0⟩), ("s9", ⟨"n9", 0, 0⟩),
         ("s10", ⟨"n10", 0, 0⟩)], 10, 1, []⟩) "s11" "n11").toOption.map
      (fun r => r.players.length) = some 11 := by
  rfl

/-- C8 as amended: register fails with the room-size error exactly when
the room already holds more than 10 players (i.e. at least 11), so a
fresh registration can raise a room to 11 players but never beyond 11. -/
theorem c8_room_cap_amended (st : Room) (sid name : String) :
    (name.data.any disallowed_char = false →
     ¬ 64 < name.length →
     st.players.any (fun kp => kp.1 ≠ sid ∧ kp.2.name = name) = false →
     (st.players.find? (fun kp => kp.1 = sid)).isSome = false →
     10 < st.players.length →
     register (some st) sid name = Except.error RegError.roomFull) ∧
    (∀ r, register (some st) sid name = Except.ok r →
      r.players.length ≤ 11 ∨ r.players.length = st.players.length) := by
  constructor
  · intro h1 h2 h3 h4 h5
    unfold register
    rw [h1]
    simp only [Option.getD_some, h3, h4, Bool.false_eq_true, if_false, if_neg h2, if_pos h5]
  · intro r hr
    unfold register at hr
    simp only [Option.getD_some] at hr
    split_ifs at hr
    all_goals first
      | (simp at hr)
      | skip
    · obtain rfl : ({ st with players := (updateFirstAssoc st.players sid
          (fun p => { p with name := name })) } : Room) = r := hr
      right
      exact updateFirstAssoc_length _ _ _
    · obtain rfl : ({ st with
          players := st.players ++ [(sid, ⟨name, 0, 0⟩)],
          admin := match st.admin with
            | none => some sid
            | some a => if a = "" then some sid else some a } : Room) = r := hr
      left
      simp only [List.length_append, List.length_cons, List.length_nil]
      omega

/-- Witness for c8_room_cap_amended: an 11-player room rejects a fresh
session with the room-size error, and a successful fresh registration into
a one-player room yields two players. -/
theorem c8_room_cap_amended_witness :
    (register (some ⟨none, some "s1",
        [("s1", ⟨"n1", 0, 0⟩), ("s2", ⟨"n2", 0, 0⟩), ("s3", ⟨"n3", 0, 0⟩),
         ("s4", ⟨"n4", 0, 0⟩), ("s5", ⟨"n5", 0, 0⟩), ("s6", ⟨"n6", 0, 0⟩),
         ("s7", ⟨"n7", 0, 0⟩), ("s8", ⟨"n8", 0, 0⟩), ("s9", ⟨"n9", 0, 0⟩),
         ("s10", ⟨"n10", 0, 0⟩), ("s11", ⟨"n11", 0, 0⟩)], 10, 1, []⟩) "s12" "zz"
      = Except.error RegError.roomFull) ∧
    ((⟨none, some "s1", [("s1", ⟨"a", 0, 0⟩), ("s2", ⟨"b", 0, 0⟩)], 10, 1, []⟩ : Room).players.length ≤ 11 ∨
     (⟨none, some "s1", [("s1", ⟨"a", 0, 0⟩), ("s2", ⟨"b", 0, 0⟩)], 10, 1, []⟩ : Room).players.length
       = (⟨none, some "s1", [("s1", ⟨"a", 0, 0⟩)], 10, 1, []⟩ : Room).players.length) :=
  ⟨(c8_room_cap_amended _ "s12" "zz").1 (by decide) (by decide) (by decide) (by decide) (by decide),
   (c8_room_cap_amended ⟨none, some "s1", [("s1", ⟨"a", 0, 0⟩)], 10, 1, []⟩ "s2" "b").2
     ⟨none, some "s1", [("s1", ⟨"a", 0, 0⟩), ("s2", ⟨"b", 0, 0⟩)], 10, 1, []⟩ (by rfl)⟩

/-! Claim C7: bet legality and the all-in truncation. -/

/-- Counterexample to C7: the under-call guard of Game._bet compares the
bettor's account balance to the call target instead of requiring the
commitment to exhaust the balance.  Player "b" (balance 3) faces a call
target of 10, bets only 1, and the bet is accepted while leaving "b" with
a positive balance of 2 — committing less than the call target without
going all-in. -/
theorem c7_counterexample :
    (Game.get_next_to_act
        ⟨[⟨"a", 10, some 0, false⟩, ⟨"b", 0, some 0, true⟩], 10, 0, []⟩
        (Room.get_balances ⟨some ⟨[⟨"a", 10, some 0, false⟩, ⟨"b", 0, some 0, true⟩], 10, 0, []⟩,
          none, [("a", ⟨"pa", 90, 0⟩), ("b", ⟨"pb", 3, 0⟩)], 10, 1, []⟩)
      = some "b") ∧
    (Game.betAction
        ⟨[⟨"a", 10, some 0, false⟩, ⟨"b", 0, some 0, true⟩], 10, 0, []⟩
        ⟨some ⟨[⟨"a", 10, some 0, false⟩, ⟨"b", 0, some 0, true⟩], 10, 0, []⟩,
          none, [("a", ⟨"pa", 90, 0⟩), ("b", ⟨"pb", 3, 0⟩)], 10, 1, []⟩
        "b" 1
      = some (⟨[⟨"a", 10, some 0, false⟩, ⟨"b", 1, some 0, false⟩], 11, 0, []⟩,
          ⟨some ⟨[⟨"a", 10, some 0, false⟩, ⟨"b", 0, some 0, true⟩], 10, 0, []⟩,
            none, [("a", ⟨"pa", 90, 0⟩), ("b", ⟨"pb", 2, 0⟩)], 10, 1, []⟩)) ∧
    (1 : Int) < 10 ∧ (2 : Int) ≠ 0 := by
  refine ⟨rfl, rfl, by decide, by decide⟩

/-- C7 as amended: for the player named by get_next_to_act, Game._bet
accepts a bet below the call target (the maximum bet among all players)
whenever the bettor's account balance is below the call target — not only
when the commitment exhausts the balance — and rejects it when the balance
covers the call target; an accepted bet debits the account by
min(balance, value - round bet), adds that amount to the round bet and the
pot, and clears the option flag. -/
theorem c7_bet_amended (g : Game) (room : Room) (sid : String) (value : Int) :
    (∀ g' r' got, g.betInner room sid value = BetOutcome.ok g' r' got →
      ∃ bettor acct mx,
        g.players.find? (fun p => p.session_id = sid) = some bettor ∧
        room.players.find? (fun kp => kp.1 = sid) = some acct ∧
        (g.players.map (fun p => p.bet)).max? = some mx ∧
        0 ≤ value - bettor.bet ∧
        (¬ value < mx ∨ acct.2.balance < mx) ∧
        got = min acct.2.balance (value - bettor.bet) ∧
        g'.pot = g.pot + got ∧ g'.stage = g.stage ∧ g'.deck = g.deck ∧
        g'.players = updateFirstPlayer g.players sid
          (fun p => { p with bet := p.bet + got, has_option := false }) ∧
        r' = { room with players := (updateFirstAssoc room.players sid
          (fun p => { p with balance := p.balance - got })) }) ∧
    (∀ bettor acct mx,
      g.players.find? (fun p => p.session_id = sid) = some bettor →
      room.players.find? (fun kp => kp.1 = sid) = some acct →
      (g.players.map (fun p => p.bet)).max? = some mx →
      value < mx → mx ≤ acct.2.balance →
      g.betInner room sid value = BetOutcome.rejected) ∧
    (∀ g' r', g.check_can_bet room.get_balances sid = true →
      g.betAction room sid value = some (g', r') →
      g.betInner room sid value = BetOutcome.rejected ∧ g' = g ∧ r' = room ∨
      ∃ got, g.betInner room sid value = BetOutcome.ok g' r' got) := by
  refine ⟨?_, ?_, ?_⟩
  · intro g' r' got hok
    unfold Game.betInner at hok
    split at hok
    · exact BetOutcome.noConfusion hok
    · rename_i bettor hb
      split at hok
      · exact BetOutcome.noConfusion hok
      · rename_i hneed
        split at hok
        · exact BetOutcome.noConfusion hok
        · rename_i mx hmx
          split at hok
          · exact BetOutcome.noConfusion hok
          · rename_i acct hacct
            split at hok
            · exact BetOutcome.noConfusion hok
            · rename_i hguard
              injection hok with h1 h2 h3
              subst h1
              subst h2
              subst h3
              refine ⟨bettor, acct, mx, hb, hacct, hmx, by omega, ?_, rfl, rfl, rfl, rfl, rfl, rfl⟩
              by_cases hv : value < mx
              · right
                by_cases hbal : acct.2.balance < mx
                · exact hbal
                · exact absurd ⟨hv, hbal⟩ hguard
              · left; exact hv
  · intro bettor acct mx hb hacct hmx hv hbal
    unfold Game.betInner
    split
    · rename_i heq
      rw [hb] at heq
      exact Option.noConfusion heq
    · rename_i bettor2 heq
      rw [hb] at heq
      injection heq with heq
      subst heq
      split
      · rfl
      · rename_i hneed
        split
        · rename_i heq2
          rw [hmx] at heq2
          exact Option.noConfusion heq2
        · rename_i mx2 heq2
          rw [hmx] at heq2
          injection heq2 with heq2
          subst heq2
          split
          · rename_i heq3
            rw [hacct] at heq3
            exact Option.noConfusion heq3
          · rename_i acct2 heq3
            rw [hacct] at heq3
            injection heq3 with heq3
            subst heq3
            rw [if_pos ⟨hv, by omega⟩]
  · intro g' r' hcheck hact
    unfold Game.betAction at hact
    rw [hcheck] at hact
    simp only [if_true] at hact
    cases hbi : g.betInner room sid value with
    | err => rw [hbi] at hact; exact Option.noConfusion hact
    | rejected =>
      rw [hbi] at hact
      injection hact with hact
      left
      exact ⟨rfl, congrArg Prod.fst hact.symm, congrArg Prod.snd hact.symm⟩
    | ok g2 r2 got =>
      rw [hbi] at hact
      injection hact with hact
      right
      refine ⟨got, ?_⟩
      injection hact with ha hb2
      rw [ha, hb2]

/-- Witness for c7_bet_amended: the accepted under-call of the
counterexample instantiates the acceptance clause, and value 5 with a
funded account instantiates the rejection clause. -/
theorem c7_bet_amended_witness :
    (∃ bettor acct mx,
      (⟨[⟨"a", 10, some 0, false⟩, ⟨"b", 0, some 0, true⟩], 10, 0, []⟩ : Game).players.find?
          (fun p => p.session_id = "b") = some bettor ∧
      (⟨some ⟨[⟨"a", 10, some 0, false⟩, ⟨"b", 0, some 0, true⟩], 10, 0, []⟩,
          none, [("a", ⟨"pa", 90, 0⟩), ("b", ⟨"pb", 3, 0⟩)], 10, 1, []⟩ : Room).players.find?
          (fun kp => kp.1 = "b") = some acct ∧
      ((⟨[⟨"a", 10, some 0, false⟩, ⟨"b", 0, some 0, true⟩], 10, 0, []⟩ : Game).players.map
          (fun p => p.bet)).max? = some mx ∧
      (0 : Int) ≤ 1 - bettor.bet ∧
      (¬ (1 : Int) < mx ∨ acct.2.balance < mx) ∧
      (1 : Int) = min acct.2.balance (1 - bettor.bet) ∧
      (11 : Int) = 10 + 1 ∧ (0 : Nat) = 0 ∧ ([] : List Card) = [] ∧
      (⟨[⟨"a", 10, some 0, false⟩, ⟨"b", 1, some 0, false⟩], 11, 0, []⟩ : Game).players =
        updateFirstPlayer (⟨[⟨"a", 10, some 0, false⟩, ⟨"b", 0, some 0, true⟩], 10, 0, []⟩ : Game).players "b"
          (fun p => { p with bet := p.bet + 1, has_option := false }) ∧
      (⟨some ⟨[⟨"a", 10, some 0, false⟩, ⟨"b", 0, some 0, true⟩], 10, 0, []⟩,
          none, [("a", ⟨"pa", 90, 0⟩), ("b", ⟨"pb", 2, 0⟩)], 10, 1, []⟩ : Room) =
        { (⟨some ⟨[⟨"a", 10, some 0, false⟩, ⟨"b", 0, some 0, true⟩], 10, 0, []⟩,
            none, [("a", ⟨"pa", 90, 0⟩), ("b", ⟨"pb", 3, 0⟩)], 10, 1, []⟩ : Room) with
          players := (updateFirstAssoc
            [("a", (⟨"pa", 90, 0⟩ : Player)), ("b", ⟨"pb", 3, 0⟩)] "b"
            (fun p => { p with balance := p.balance - 1 })) }) ∧
    (Game.betInner ⟨[⟨"a", 10, some 0, false⟩, ⟨"b", 0, some 0, true⟩], 10, 0, []⟩
      ⟨some ⟨[⟨"a", 10, some 0, false⟩, ⟨"b", 0, some 0, true⟩], 10, 0, []⟩,
        none, [("a", ⟨"pa", 90, 0⟩), ("b", ⟨"pb", 30, 0⟩)], 10, 1, []⟩ "b" 5
      = BetOutcome.rejected) :=
  ⟨(c7_bet_amended ⟨[⟨"a", 10, some 0, false⟩, ⟨"b", 0, some 0, true⟩], 10, 0, []⟩
      ⟨some ⟨[⟨"a", 10, some 0, false⟩, ⟨"b", 0, some 0, true⟩], 10, 0, []⟩,
        none, [("a", ⟨"pa", 90, 0⟩), ("b", ⟨"pb", 3, 0⟩)], 10, 1, []⟩ "b" 1).1
      ⟨[⟨"a", 10, some 0, false⟩, ⟨"b", 1, some 0, false⟩], 11, 0, []⟩
      ⟨some ⟨[⟨"a", 10, some 0, false⟩, ⟨"b", 0, some 0, true⟩], 10, 0, []⟩,
        none, [("a", ⟨"pa", 90, 0⟩), ("b", ⟨"pb", 2, 0⟩)], 10, 1, []⟩ 1 (by rfl),
   (c7_bet_amended ⟨[⟨"a", 10, some 0, false⟩, ⟨"b", 0, some 0, true⟩], 10, 0, []⟩
      ⟨some ⟨[⟨"a", 10, some 0, false⟩, ⟨"b", 0, some 0, true⟩], 10, 0, []⟩,
        none, [("a", ⟨"pa", 90, 0⟩), ("b", ⟨"pb", 30, 0⟩)], 10, 1, []⟩ "b" 5).2.1
      ⟨"b", 0, some 0, true⟩ ("b", ⟨"pb", 30, 0⟩) 10 (by rfl) (by rfl) (by rfl)
      (by decide) (by decide)⟩


/-! Claim C2: the next-to-act selection. -/

/-- Counterexample to C2: two players with equal bets, one of them broke
(all-in) and the other funded with the option flag still set.  Only one
player could still bet, so the `can_bet >= 2` guard makes
get_next_to_act return none even though a not-folded, funded player with
the option flag exists — the claim's option clause and its "none exactly
when no such player exists" reading both fail. -/
theorem c2_counterexample :
    (Game.get_next_to_act ⟨[⟨"a", 5, some 0, true⟩, ⟨"b", 5, some 0, true⟩], 10, 0, []⟩
        (fun s => if s = "b" then 10 else 0) = none) ∧
    ((⟨[⟨"a", 5, some 0, true⟩, ⟨"b", 5, some 0, true⟩], 10, 0, []⟩ : Game).players.find?
        (fun p => p.has_option && p.eligibility.isSome &&
          ((if p.session_id = "b" then (10 : Int) else 0) != 0))).isSome = true :=
  ⟨rfl, rfl⟩


theorem foldl_max_of_le (t : List Int) (a : Int) (h : ∀ x ∈ t, x ≤ a) :
    t.foldl max a = a := by
  induction t generalizing a with
  | nil => rfl
  | cons b bs ih =>
    have hb : b ≤ a := h b (by simp)
    have : max a b = a := max_eq_left hb
    simp only [List.foldl_cons, this]
    exact ih a (fun x hx => h x (by simp [hx]))

theorem le_foldl_max_self (t : List Int) (a : Int) : a ≤ t.foldl max a := by
  induction t generalizing a with
  | nil => simp
  | cons b bs ih => exact le_trans (le_max_left a b) (ih (max a b))

theorem mem_le_foldl_max (t : List Int) (a x : Int) (hx : x ∈ t) : x ≤ t.foldl max a := by
  induction t generalizing a with
  | nil => simp at hx
  | cons b bs ih =>
    rcases List.mem_cons.mp hx with rfl | hx2
    · exact le_trans (le_max_right a x) (le_foldl_max_self bs (max a x))
    · exact ih (max a b) hx2

theorem champLoop_all_le (bs : List Int) (aI : Nat) (aB : Int) (i : Nat)
    (h : ∀ b ∈ bs, b ≤ aB) : champLoop bs aI aB i = (aI, aB) := by
  induction bs generalizing i with
  | nil => rfl
  | cons b t ih =>
    have hb : ¬ aB < b := not_lt.mpr (h b (by simp))
    simp only [champLoop, if_neg hb]
    exact ih (i + 1) (fun x hx => h x (by simp [hx]))

theorem champLoop_max (bs : List Int) (aI : Nat) (aB : Int) (i : Nat) (M : Int)
    (hM : bs.foldl max aB = M) (hlt : aB < M) :
    ∃ j, List.findIdx? (fun b => b == M) bs i = some j ∧ champLoop bs aI aB i = (j, M) := by
  induction bs generalizing aI aB i with
  | nil => simp only [List.foldl_nil] at hM; omega
  | cons b t ih =>
    simp only [List.foldl_cons] at hM
    by_cases hab : aB < b
    · have hmaxab : max aB b = b := max_eq_right (le_of_lt hab)
      rw [hmaxab] at hM
      by_cases hall : ∀ x ∈ t, x ≤ b
      · have hMb : M = b := by rw [← hM, foldl_max_of_le t b hall]
        refine ⟨i, ?_, ?_⟩
        · rw [List.findIdx?_cons, if_pos (by simp [hMb])]
        · simp only [champLoop, if_pos hab]
          rw [champLoop_all_le t i b (i + 1) (fun x hx => hMb ▸ hall x hx)]
          rw [hMb]
      · push_neg at hall
        obtain ⟨x, hxt, hbx⟩ := hall
        have hbM : b < M := lt_of_lt_of_le hbx (hM ▸ mem_le_foldl_max t b x hxt)
        obtain ⟨j, hfi, hch⟩ := ih i b (i + 1) hM hbM
        refine ⟨j, ?_, ?_⟩
        · rw [List.findIdx?_cons, if_neg (by simp; omega)]
          exact hfi
        · simp only [champLoop, if_pos hab]
          exact hch
    · have hmaxab : max aB b = aB := max_eq_left (not_lt.mp hab)
      rw [hmaxab] at hM
      have hbM : b < M := lt_of_le_of_lt (not_lt.mp hab) hlt
      obtain ⟨j, hfi, hch⟩ := ih aI aB (i + 1) hM hlt
      refine ⟨j, ?_, ?_⟩
      · rw [List.findIdx?_cons, if_neg (by simp; omega)]
        exact hfi
      · simp only [champLoop, if_neg hab]
        exact hch

theorem scan1_spec (l : List PlayerInHand) (bal : String → Int) (mx : Int) (n : Nat) :
    scan1 l bal mx n =
      match l.find? (fun p => p.eligibility.isSome && bal p.session_id != 0 && decide (p.bet < mx)) with
      | some p => Sum.inl p.session_id
      | none => Sum.inr (n + l.countP (fun p => p.eligibility.isSome && bal p.session_id != 0)) := by
  induction l generalizing n with
  | nil => simp [scan1]
  | cons p ps ih =>
    by_cases h1 : p.eligibility.isNone
    · have hs : (p.eligibility.isSome && bal p.session_id != 0 && decide (p.bet < mx)) = false := by
        simp [Option.isNone_iff_eq_none.mp h1]
      have hc : (p.eligibility.isSome && bal p.session_id != 0) = false := by
        simp [Option.isNone_iff_eq_none.mp h1]
      rw [List.find?_cons_of_neg _ (by simp [hs])]
      simp only [scan1, if_pos h1]
      rw [ih n]
      simp only [List.countP_cons, hc]
      rfl
    · by_cases h2 : bal p.session_id = 0
      · have hs : (p.eligibility.isSome && bal p.session_id != 0 && decide (p.bet < mx)) = false := by
          simp [h2]
        have hc : (p.eligibility.isSome && bal p.session_id != 0) = false := by simp [h2]
        rw [List.find?_cons_of_neg _ (by simp [hs])]
        simp only [scan1, if_neg h1, if_pos h2]
        rw [ih n]
        simp only [List.countP_cons, hc]
        rfl
      · have hss : p.eligibility.isSome = true := Option.ne_none_iff_isSome.mp (by simpa using h1)
        by_cases h3 : p.bet < mx
        · have hs : (p.eligibility.isSome && bal p.session_id != 0 && decide (p.bet < mx)) = true := by
            simp [hss, bne_iff_ne, h2, h3]
          rw [List.find?_cons_of_pos _ (by simp [hs])]
          simp only [scan1, if_neg h1, if_neg h2, if_pos h3]
        · have hs : (p.eligibility.isSome && bal p.session_id != 0 && decide (p.bet < mx)) = false := by
            simp [h3]
          have hc : (p.eligibility.isSome && bal p.session_id != 0) = true := by
            simp [hss, bne_iff_ne, h2]
          rw [List.find?_cons_of_neg _ (by simp [hs])]
          simp only [scan1, if_neg h1, if_neg h2, if_neg h3]
          rw [ih (n + 1)]
          have hcnt : List.countP (fun p => p.eligibility.isSome && bal p.session_id != 0) (p :: ps)
              = List.countP (fun p => p.eligibility.isSome && bal p.session_id != 0) ps + 1 := by
            simp [List.countP_cons, hc]
          rw [hcnt]
          cases hfind : List.find? (fun p => p.eligibility.isSome && bal p.session_id != 0 && decide (p.bet < mx)) ps
          · simp only [hfind]
            congr 1
            omega
          · simp only [hfind]



theorem countP_rotate {α : Type} (l : List α) (n : Nat) (p : α → Bool) :
    List.countP p (l.drop n ++ l.take n) = List.countP p l := by
  rw [List.countP_append, Nat.add_comm, ← List.countP_append, List.take_append_drop]

theorem findIdx?_map_bet (l : List PlayerInHand) (i : Nat) (M : Int) :
    List.findIdx? (fun b => b == M) (l.map (fun p => p.bet)) i
      = List.findIdx? (fun p => p.bet == M) l i := by
  induction l generalizing i with
  | nil => rfl
  | cons p ps ih =>
    simp only [List.map_cons, List.findIdx?_cons]
    by_cases h : (p.bet == M) = true
    · rw [if_pos h, if_pos h]
    · rw [if_neg h, if_neg h, ih]

theorem c2_next_to_act_refines (g : Game) (bal : String → Int) :
    g.get_next_to_act bal = next_to_act_described g bal := by
  obtain ⟨ps, pot, stage, deck⟩ := g
  cases ps with
  | nil => rfl
  | cons p0 rest =>
    have hmax : (((⟨p0 :: rest, pot, stage, deck⟩ : Game)).players.map (fun p => p.bet)).max?
        = some ((rest.map (fun p => p.bet)).foldl max p0.bet) := rfl
    by_cases hall : ∀ b ∈ rest.map (fun p => p.bet), b ≤ p0.bet
    · have hch : champLoop (rest.map (fun p => p.bet)) 0 p0.bet 1 = (0, p0.bet) :=
        champLoop_all_le _ _ _ _ hall
      have hM : (rest.map (fun p => p.bet)).foldl max p0.bet = p0.bet :=
        foldl_max_of_le _ _ hall
      have hfi : List.findIdx? (fun p => p.bet == p0.bet) (p0 :: rest) 0 = some 0 := by
        rw [List.findIdx?_cons, if_pos (by simp)]
      simp only [Game.get_next_to_act, next_to_act_described, hmax, hM, hfi, hch]
      rw [scan1_spec]
      cases hfind : List.find? (fun p =>
          p.eligibility.isSome && bal p.session_id != 0 && decide (p.bet < p0.bet))
          ((p0 :: rest).drop (0 + 1) ++ (p0 :: rest).take (0 + 1)) with
      | some p => simp only [hfind]
      | none =>
        simp only [hfind, Nat.zero_add, countP_rotate]
    · push_neg at hall
      obtain ⟨x, hxm, hxgt⟩ := hall
      have hlt : p0.bet < (rest.map (fun p => p.bet)).foldl max p0.bet :=
        lt_of_lt_of_le hxgt (mem_le_foldl_max _ _ _ hxm)
      obtain ⟨j, hfi0, hch⟩ := champLoop_max (rest.map (fun p => p.bet)) 0 p0.bet 1
        ((rest.map (fun p => p.bet)).foldl max p0.bet) rfl hlt
      have hfi : List.findIdx? (fun p => p.bet == (rest.map (fun p => p.bet)).foldl max p0.bet)
          (p0 :: rest) 0 = some j := by
        rw [List.findIdx?_cons, if_neg (by simp; omega)]
        rw [← findIdx?_map_bet]
        exact hfi0
      simp only [Game.get_next_to_act, next_to_act_described, hmax, hfi, hch]
      rw [scan1_spec]
      cases hfind : List.find? (fun p =>
          p.eligibility.isSome && bal p.session_id != 0 &&
            decide (p.bet < (rest.map (fun p => p.bet)).foldl max p0.bet))
          ((p0 :: rest).drop (j + 1) ++ (p0 :: rest).take (j + 1)) with
      | some p => simp only [hfind]
      | none =>
        simp only [hfind, Nat.zero_add, countP_rotate]


/-- C2 as amended: get_next_to_act scans the players in rotation starting
just after the first holder of the maximal bet and returns the first
not-folded, funded player betting strictly below the maximum; once all
active bets are equal it returns the first player in seat order whose
option flag is still set, but only when at least two not-folded, funded
players remain (the can_bet at least 2 guard); otherwise — including when
only one player could still bet — it returns none.  Stated as a
refinement: the implementation equals the described selection on every
game and every balance table. -/
theorem c2_next_to_act_amended (g : Game) (bal : String → Int) :
    g.get_next_to_act bal = next_to_act_described g bal :=
  c2_next_to_act_refines g bal


/-! Claim C1: round settlement eligibility accounting. -/

theorem finalize_pass_sorted_find?
    (s : List PlayerInHand) (c : Int) (p : PlayerInHand)
    (hsort : s.Pairwise (fun a b => a.bet ≤ b.bet))
    (hnd : (s.map (fun q => q.session_id)).Nodup)
    (hmem : p ∈ s) :
    (finalize_pass s c s.length).1.find? (fun q => q.session_id = p.session_id)
      = some { p with
          bet := 0
          has_option := true
          eligibility := p.eligibility.map (fun e => e + (c
            + ((s.map (fun q => q.bet)).filter (fun b => b < p.bet)).sum
            + p.bet * (((s.map (fun q => q.bet)).countP (fun b => p.bet ≤ b) : Nat) : Int))) } := by
  induction s generalizing c with
  | nil => simp at hmem
  | cons q rest ih =>
    by_cases hqp : q.session_id = p.session_id
    · have hpq : p = q := by
        rcases List.mem_cons.mp hmem with h | hptl
        · exact h
        · exfalso
          have hin : p.session_id ∈ rest.map (fun r => r.session_id) :=
            List.mem_map_of_mem _ hptl
          rw [← hqp] at hin
          exact (List.nodup_cons.mp (by simpa using hnd)).1 hin
      subst hpq
      have hall : ∀ b ∈ rest, p.bet ≤ b.bet := fun b hb => (List.pairwise_cons.mp hsort).1 b hb
      have hflt : ((p :: rest).map (fun r => r.bet)).filter (fun b => b < p.bet) = [] := by
        rw [List.filter_eq_nil_iff]
        intro b hb
        simp only [List.map_cons, List.mem_cons, List.mem_map] at hb
        rcases hb with rfl | ⟨r, hr, rfl⟩
        · simp
        · simp only [decide_eq_true_eq, not_lt]
          exact hall r hr
      have hcnt : ((p :: rest).map (fun r => r.bet)).countP (fun b => p.bet ≤ b)
          = ((p :: rest).map (fun r => r.bet)).length := by
        rw [List.countP_eq_length]
        intro b hb
        simp only [List.map_cons, List.mem_cons, List.mem_map] at hb
        rcases hb with rfl | ⟨r, hr, rfl⟩
        · simp
        · simp only [decide_eq_true_eq]
          exact hall r hr
      simp only [finalize_pass]
      rw [List.find?_cons_of_pos _ (by simp)]
      rw [hflt, hcnt]
      simp only [List.sum_nil, List.length_map, List.length_cons]
      norm_num
    · simp only [finalize_pass]
      rw [List.find?_cons_of_neg _ (by simp [hqp])]
      have hmem2 : p ∈ rest := by
        rcases List.mem_cons.mp hmem with h | h
        · exact absurd (h ▸ rfl) hqp
        · exact h
      have hsort2 := (List.pairwise_cons.mp hsort).2
      have hnd2 : (rest.map (fun r => r.session_id)).Nodup :=
        (List.nodup_cons.mp (by simpa using hnd)).2
      have hqle : q.bet ≤ p.bet := (List.pairwise_cons.mp hsort).1 p hmem2
      have hlen : (q :: rest).length - 1 = rest.length := rfl
      rw [hlen, ih (c + q.bet) hsort2 hnd2 hmem2]
      have hfc : (((q :: rest).map (fun r => r.bet)).filter (fun b => b < p.bet)).sum
          = (if q.bet < p.bet then q.bet else 0)
            + ((rest.map (fun r => r.bet)).filter (fun b => b < p.bet)).sum := by
        simp only [List.map_cons, List.filter_cons]
        by_cases h : q.bet < p.bet
        · simp [h]
        · simp [h]
      have hcc : ((((q :: rest).map (fun r => r.bet)).countP (fun b => p.bet ≤ b) : Nat) : Int)
          = (((rest.map (fun r => r.bet)).countP (fun b => p.bet ≤ b) : Nat) : Int)
            + (if p.bet ≤ q.bet then 1 else 0) := by
        simp only [List.map_cons, List.countP_cons]
        by_cases h : p.bet ≤ q.bet
        · simp [h]
        · simp [h]
      have hfun : (fun e : Int => e + (c + q.bet
            + ((rest.map (fun r => r.bet)).filter (fun b => b < p.bet)).sum
            + p.bet * (((rest.map (fun r => r.bet)).countP (fun b => p.bet ≤ b) : Nat) : Int)))
          = (fun e : Int => e + (c
            + (((q :: rest).map (fun r => r.bet)).filter (fun b => b < p.bet)).sum
            + p.bet * ((((q :: rest).map (fun r => r.bet)).countP (fun b => p.bet ≤ b) : Nat) : Int))) := by
        funext e
        rw [hfc, hcc]
        rcases lt_or_eq_of_le hqle with hlt | heq
        · rw [if_pos hlt, if_neg (not_le.mpr hlt)]
          ring
        · rw [if_neg (by omega), if_pos (by omega)]
          rw [← heq]
          ring
      rw [hfun]

/-- C1: at round settlement (Game._finalize_betting), every non-folded
player's eligibility grows by exactly (sum of all bets strictly below that
player's round bet) plus (that player's bet times the number of bets at
least as large, the player's own included) — the stable bet-sorted pass
with its cumulative sum and bets_above counter computes precisely this —
and afterwards every player's round bet is 0 and every option flag is
true, with the pot and stage untouched.  Session ids are assumed distinct,
which they are in every game (Python relies on object identity for the
in-place update). -/
theorem c1_finalize_betting (g : Game)
    (hnd : (g.players.map (fun p => p.session_id)).Nodup) :
    (g.finalize_betting).1.players = g.players.map (fun p =>
      { p with
        bet := 0
        has_option := true
        eligibility := p.eligibility.map (fun e => e
          + (((g.players.map (fun q => q.bet)).filter (fun b => b < p.bet)).sum
          + p.bet * (((g.players.map (fun q => q.bet)).countP (fun b => p.bet ≤ b) : Nat) : Int))) }) ∧
    (∀ p ∈ (g.finalize_betting).1.players, p.bet = 0 ∧ p.has_option = true) ∧
    (g.finalize_betting).1.pot = g.pot ∧ (g.finalize_betting).1.stage = g.stage := by
  have hperm : (g.players.mergeSort (fun a b => a.bet ≤ b.bet)).Perm g.players :=
    List.mergeSort_perm _ _
  have hsort : (g.players.mergeSort (fun a b => a.bet ≤ b.bet)).Pairwise
      (fun a b => a.bet ≤ b.bet) := by
    have := @List.sorted_mergeSort PlayerInHand (fun a b : PlayerInHand => decide (a.bet ≤ b.bet))
      (fun a b c hab hbc => by
        simp only [decide_eq_true_eq] at hab hbc ⊢
        omega)
      (fun a b => by
        simp only [Bool.or_eq_true, decide_eq_true_eq]
        omega)
      g.players
    exact this.imp (fun h => of_decide_eq_true h)
  have hnds : ((g.players.mergeSort (fun a b => a.bet ≤ b.bet)).map
      (fun p => p.session_id)).Nodup := by
    rw [List.Perm.nodup_iff (hperm.map (fun p => p.session_id))]
    exact hnd
  have hmain : (g.finalize_betting).1.players = g.players.map (fun p =>
      { p with
        bet := 0
        has_option := true
        eligibility := p.eligibility.map (fun e => e
          + (((g.players.map (fun q => q.bet)).filter (fun b => b < p.bet)).sum
          + p.bet * (((g.players.map (fun q => q.bet)).countP (fun b => p.bet ≤ b) : Nat) : Int))) }) := by
    simp only [Game.finalize_betting]
    refine List.map_congr_left ?_
    intro p hp
    have hpmem : p ∈ g.players.mergeSort (fun a b => a.bet ≤ b.bet) := hperm.mem_iff.mpr hp
    rw [finalize_pass_sorted_find? _ 0 p hsort hnds hpmem]
    rw [Option.getD_some]
    have hsum : (((g.players.mergeSort (fun a b => a.bet ≤ b.bet)).map (fun q => q.bet)).filter
          (fun b => b < p.bet)).sum
        = ((g.players.map (fun q => q.bet)).filter (fun b => b < p.bet)).sum :=
      List.Perm.sum_eq ((hperm.map (fun q => q.bet)).filter _)
    have hcnt : ((g.players.mergeSort (fun a b => a.bet ≤ b.bet)).map (fun q => q.bet)).countP
          (fun b => p.bet ≤ b)
        = (g.players.map (fun q => q.bet)).countP (fun b => p.bet ≤ b) :=
      List.Perm.countP_eq _ (hperm.map (fun q => q.bet))
    rw [hsum, hcnt]
    have hz : ∀ e : Int, e + ((0 : Int)
          + ((g.players.map (fun q => q.bet)).filter (fun b => b < p.bet)).sum
          + p.bet * (((g.players.map (fun q => q.bet)).countP (fun b => p.bet ≤ b) : Nat) : Int))
        = e + (((g.players.map (fun q => q.bet)).filter (fun b => b < p.bet)).sum
          + p.bet * (((g.players.map (fun q => q.bet)).countP (fun b => p.bet ≤ b) : Nat) : Int)) := by
      intro e
      ring
    rw [funext hz]
  refine ⟨hmain, ?_, rfl, rfl⟩
  intro p hp
  rw [hmain] at hp
  obtain ⟨q, _, rfl⟩ := List.mem_map.mp hp
  exact ⟨rfl, rfl⟩

/-- Witness for c1_finalize_betting: a three-player round with bets 1, 3,
3 (one player folded); eligibilities grow by 7, 7, and stay folded. -/
theorem c1_finalize_betting_witness :
    ((⟨[⟨"a", 3, some 2, false⟩, ⟨"b", 3, some 0, false⟩, ⟨"c", 1, none, false⟩],
        7, 0, []⟩ : Game).finalize_betting).1.players =
      [⟨"a", 0, some 9, true⟩, ⟨"b", 0, some 7, true⟩, ⟨"c", 0, none, true⟩] := by
  have h := (c1_finalize_betting
    ⟨[⟨"a", 3, some 2, false⟩, ⟨"b", 3, some 0, false⟩, ⟨"c", 1, none, false⟩], 7, 0, []⟩
    (by decide)).1
  rw [h]
  rfl



/-! Claims C3 and C4: the showdown payout loop. -/

/-! Association-list bookkeeping lemmas for the payout loop. -/

theorem find?_append_self {α : Type} (l : List (String × α)) (k : String) (x : α)
    (h : l.find? (fun kp => kp.1 = k) = none) :
    (l ++ [(k, x)]).find? (fun kp => kp.1 = k) = some (k, x) := by
  induction l with
  | nil => simp
  | cons q ps ih =>
    by_cases hq : q.1 = k
    · rw [List.find?_cons_of_pos _ (by simpa using hq)] at h
      exact Option.noConfusion h
    · rw [List.find?_cons_of_neg _ (by simpa using hq)] at h
      rw [List.cons_append, List.find?_cons_of_neg _ (by simpa using hq)]
      exact ih h

theorem find?_append_ne {α : Type} (l : List (String × α)) (k x' : String) (v : α)
    (hne : x' ≠ k) :
    (l ++ [(k, v)]).find? (fun kp => kp.1 = x') = l.find? (fun kp => kp.1 = x') := by
  induction l with
  | nil =>
    simp only [List.nil_append]
    rw [List.find?_cons_of_neg _ (by simp; exact fun h => hne h.symm), List.find?_nil]
  | cons q ps ih =>
    by_cases hq : q.1 = x'
    · rw [List.cons_append, List.find?_cons_of_pos _ (by simpa using hq),
        List.find?_cons_of_pos _ (by simpa using hq)]
    · rw [List.cons_append, List.find?_cons_of_neg _ (by simpa using hq),
        List.find?_cons_of_neg _ (by simpa using hq)]
      exact ih

theorem paySum_append (l : List (String × PlayerAfterGame)) (k : String) (pa : PlayerAfterGame) :
    paySum (l ++ [(k, pa)]) = paySum l + pa.payout := by
  simp [paySum]

theorem paySum_update (l : List (String × PlayerAfterGame)) (k : String) (amt : Int)
    (h : (l.find? (fun kp => kp.1 = k)).isSome) :
    paySum (updateFirstAssoc l k (fun pa => { pa with payout := pa.payout + amt }))
      = paySum l + amt := by
  induction l with
  | nil => simp at h
  | cons q ps ih =>
    by_cases hq : q.1 = k
    · simp only [updateFirstAssoc, if_pos hq, paySum, List.map_cons, List.sum_cons]
      ring
    · rw [List.find?_cons_of_neg _ (by simpa using hq)] at h
      simp only [updateFirstAssoc, if_neg hq, paySum, List.map_cons, List.sum_cons]
      have := ih h
      simp only [paySum] at this
      rw [this]
      ring

theorem balSum_update (l : List (String × Player)) (k : String) (amt : Int)
    (h : (l.find? (fun kp => kp.1 = k)).isSome) :
    balSum (updateFirstAssoc l k (fun p => p.increment_balance amt)) = balSum l + amt := by
  induction l with
  | nil => simp at h
  | cons q ps ih =>
    by_cases hq : q.1 = k
    · simp only [updateFirstAssoc, if_pos hq, balSum, List.map_cons, List.sum_cons,
        Player.increment_balance]
      ring
    · rw [List.find?_cons_of_neg _ (by simpa using hq)] at h
      simp only [updateFirstAssoc, if_neg hq, balSum, List.map_cons, List.sum_cons]
      have := ih h
      simp only [balSum] at this
      rw [this]
      ring

theorem payoutIn_update (l : List (String × PlayerAfterGame)) (k : String) (amt : Int)
    (kp : String × PlayerAfterGame) (h : l.find? (fun q => q.1 = k) = some kp) :
    payoutIn (updateFirstAssoc l k (fun pa => { pa with payout := pa.payout + amt })) k
      = payoutIn l k + amt := by
  unfold payoutIn
  rw [h, updateFirstAssoc_find?_self _ _ _ _ h]
  rfl

theorem payoutIn_update_ne (l : List (String × PlayerAfterGame)) (k x : String) (amt : Int)
    (hne : x ≠ k) :
    payoutIn (updateFirstAssoc l k (fun pa => { pa with payout := pa.payout + amt })) x
      = payoutIn l x := by
  unfold payoutIn
  rw [updateFirstAssoc_find?_ne _ _ _ _ hne]

/-! pay_player bookkeeping. -/

theorem pay_player_sums (fh : List FinalEntry) (comp : List (String × PlayerAfterGame))
    (acc : List (String × Player)) (sid : String) (amt : Int)
    (c' : List (String × PlayerAfterGame)) (a' : List (String × Player))
    (h : pay_player fh comp acc sid amt = some (c', a')) :
    paySum c' = paySum comp + amt ∧ balSum a' = balSum acc + amt ∧
    payoutIn c' sid = payoutIn comp sid + amt ∧
    (∀ x, x ≠ sid → payoutIn c' x = payoutIn comp x) := by
  unfold pay_player at h
  split at h
  · exact Option.noConfusion h
  · rename_i hand hh
    split at h
    · exact Option.noConfusion h
    · rename_i acct hacct
      injection h with h
      injection h with h1 h2
      subst h1
      subst h2
      have haccs : (acc.find? (fun kp => kp.1 = sid)).isSome = true := by simp [hacct]
      by_cases hpres : (comp.find? (fun kp => kp.1 = sid)).isSome
      · obtain ⟨kp, hkp⟩ := Option.isSome_iff_exists.mp hpres
        rw [if_pos hpres]
        refine ⟨paySum_update _ _ _ hpres, balSum_update _ _ _ haccs, ?_, ?_⟩
        · exact payoutIn_update _ _ _ _ hkp
        · intro x hx
          exact payoutIn_update_ne _ _ _ _ hx
      · rw [if_neg hpres]
        have hnone : comp.find? (fun kp => kp.1 = sid) = none := by
          cases hf : comp.find? (fun kp => kp.1 = sid)
          · rfl
          · exact absurd (by simp [hf]) hpres
        have happ := find?_append_self comp sid ⟨hand, 0⟩ hnone
        refine ⟨?_, balSum_update _ _ _ haccs, ?_, ?_⟩
        · rw [paySum_update _ _ _ (by simp [happ]), paySum_append]
          simp
        · rw [payoutIn_update _ _ _ _ happ]
          unfold payoutIn
          rw [hnone, happ]
          rfl
        · intro x hx
          rw [payoutIn_update_ne _ _ _ _ hx]
          unfold payoutIn
          rw [find?_append_ne _ _ _ _ hx]



theorem pay_winners_pass_sums :
    ∀ (ws : List String) (st : PayState) (amt : Int) (elim : List String)
      (st' : PayState) (elim' : List String),
      pay_winners_pass ws st amt elim = some (st', elim') →
      paySum st'.completed + st'.pot = paySum st.completed + st.pot ∧
      balSum st'.accounts - paySum st'.completed = balSum st.accounts - paySum st.completed ∧
      (ws.Nodup → ∀ w ∈ ws, payoutIn st'.completed w = payoutIn st.completed w + amt) ∧
      (∀ x, x ∉ ws → payoutIn st'.completed x = payoutIn st.completed x) := by
  intro ws
  induction ws with
  | nil =>
    intro st amt elim st' elim' h
    injection h with h
    injection h with h1 h2
    subst h1
    refine ⟨rfl, rfl, ?_, ?_⟩
    · intro _ w hw
      simp at hw
    · intro x _
      rfl
  | cons w ws ih =>
    intro st amt elim st' elim' h
    unfold pay_winners_pass at h
    split at h
    · exact Option.noConfusion h
    · rename_i ca hca
      obtain ⟨hps, hbs, hself, hother⟩ :=
        pay_player_sums st.final_hands st.completed st.accounts w amt ca.1 ca.2
          (by rw [hca])
      obtain ⟨ih1, ih2, ih3, ih4⟩ := ih _ _ _ _ _ h
      simp only at ih1 ih2 ih3 ih4
      refine ⟨?_, ?_, ?_, ?_⟩
      · rw [ih1, hps]
        ring
      · rw [ih2, hbs, hps]
        ring
      · intro hnd v hv
        obtain ⟨hwnotin, hndws⟩ := List.nodup_cons.mp hnd
        rcases List.mem_cons.mp hv with rfl | hvws
        · rw [ih4 v hwnotin, hself]
        · have hvne : v ≠ w := fun hh => hwnotin (hh ▸ hvws)
          rw [ih3 hndws v hvws, hother v hvne]
      · intro x hx
        have hxw : x ≠ w := fun hh => hx (hh ▸ List.mem_cons_self w ws)
        have hxws : x ∉ ws := fun hh => hx (List.mem_cons_of_mem w hh)
        rw [ih4 x hxws, hother x hxw]

theorem payRound_done_eq (st st' : PayState) (h : payRound st = some (PayRes.done st')) :
    st' = st := by
  unfold payRound at h
  split at h
  · exact Option.noConfusion h
  · split at h
    · exact Option.noConfusion h
    · split at h
      · exact Option.noConfusion h
      · split at h
        · injection h with h
          injection h with h
          exact h.symm
        · split at h
          · exact Option.noConfusion h
          · rename_i st1 hps
            cases hd : delAll st1.1.final_hands st1.2 with
            | none => rw [hd] at h; exact Option.noConfusion h
            | some fh2 =>
              rw [hd] at h
              simp only [Option.map_some'] at h
              injection h with h
              exact PayRes.noConfusion h

theorem payRound_step_sums (st st' : PayState)
    (h : payRound st = some (PayRes.step st')) :
    paySum st'.completed + st'.pot = paySum st.completed + st.pot ∧
    balSum st'.accounts - paySum st'.completed = balSum st.accounts - paySum st.completed := by
  unfold payRound at h
  split at h
  · exact Option.noConfusion h
  · split at h
    · exact Option.noConfusion h
    · split at h
      · exact Option.noConfusion h
      · split at h
        · injection h with h
          exact PayRes.noConfusion h
        · split at h
          · exact Option.noConfusion h
          · rename_i st1 hps
            cases hd : delAll st1.1.final_hands st1.2 with
            | none => rw [hd] at h; exact Option.noConfusion h
            | some fh2 =>
              rw [hd] at h
              simp only [Option.map_some'] at h
              injection h with h
              injection h with h
              obtain ⟨h1, h2⟩ := pay_winners_pass_sums _ _ _ _ _ _
                (by rw [hps] : pay_winners_pass _ st _ [] = some (st1.1, st1.2))
              subst h
              exact ⟨h1, h2.1⟩

theorem pay_loop_sums :
    ∀ (fuel : Nat) (st st' : PayState), pay_loop fuel st = some st' →
      paySum st'.completed + st'.pot = paySum st.completed + st.pot ∧
      balSum st'.accounts - paySum st'.completed = balSum st.accounts - paySum st.completed := by
  intro fuel
  induction fuel with
  | zero =>
    intro st st' h
    unfold pay_loop at h
    split at h
    · split at h
      · injection h with h
        subst h
        exact ⟨rfl, rfl⟩
      · exact Option.noConfusion h
    · exact Option.noConfusion h
  | succ fuel ih =>
    intro st st' h
    unfold pay_loop at h
    split at h
    · split at h
      · injection h with h
        subst h
        exact ⟨rfl, rfl⟩
      · exact Option.noConfusion h
    · cases hr : payRound st with
      | none => rw [hr] at h; exact Option.noConfusion h
      | some r =>
        rw [hr] at h
        cases r with
        | done st2 =>
          injection h with h
          subst h
          obtain rfl := payRound_done_eq st st2 hr
          exact ⟨rfl, rfl⟩
        | step st2 =>
          obtain ⟨h1, h2⟩ := payRound_step_sums st st2 hr
          obtain ⟨ih1, ih2⟩ := ih st2 st' h
          constructor
          · rw [ih1, h1]
          · rw [ih2, h2]



/-- C4: a payout pass conserves chips exactly: for every completed run of
Game.pay_winners, the sum of the per-winner payouts recorded in the
appended CompletedGame — which equals the total credited to winner account
balances — plus the pot remaining at the end equals the pot at the start. -/
theorem c4_pay_winners_conservation (g : Game) (room : Room) (g' : Game) (room' : Room)
    (h : g.pay_winners room = some (g', room')) :
    ∃ cg, room'.log = room.log ++ [cg] ∧
      paySum cg.players + g'.pot = g.pot ∧
      balSum room'.players = balSum room.players + paySum cg.players := by
  unfold Game.pay_winners at h
  cases hl : pay_loop g.final_hands.length ⟨g.pot, g.final_hands, [], room.players⟩ with
  | none => rw [hl] at h; exact Option.noConfusion h
  | some stF =>
    rw [hl] at h
    simp only [Option.map_some'] at h
    injection h with h
    injection h with h1 h2
    subst h1
    subst h2
    obtain ⟨hsum, hbal⟩ := pay_loop_sums _ _ _ hl
    simp only [paySum, List.map_nil, List.sum_nil] at hsum hbal
    refine ⟨⟨g.community_cards, stF.completed⟩, rfl, ?_, ?_⟩
    · simpa using hsum
    · simp only [paySum] at hsum hbal ⊢
      omega

/-- Witness for c4_pay_winners_conservation: a single-contender showdown
paying the whole ten-chip pot to "w". -/
theorem c4_pay_winners_conservation_witness :
    ∃ cg,
      (⟨none, none, [("w", ⟨"n", 10, 0⟩)], 10, 1,
        [⟨[⟨'3', 'C'⟩, ⟨'9', 'S'⟩, ⟨'5', 'D'⟩, ⟨'J', 'S'⟩, ⟨'Q', 'C'⟩],
          [("w", ⟨none, 10⟩)]⟩]⟩ : Room).log
        = (⟨none, none, [("w", ⟨"n", 0, 0⟩)], 10, 1, []⟩ : Room).log ++ [cg] ∧
      paySum cg.players
          + (⟨[⟨"w", 0, some 10, false⟩], 0, 3,
              [⟨'A', 'H'⟩, ⟨'A', 'S'⟩, ⟨'3', 'C'⟩, ⟨'9', 'S'⟩, ⟨'5', 'D'⟩, ⟨'J', 'S'⟩, ⟨'Q', 'C'⟩]⟩ : Game).pot
        = (⟨[⟨"w", 0, some 10, false⟩], 10, 3,
              [⟨'A', 'H'⟩, ⟨'A', 'S'⟩, ⟨'3', 'C'⟩, ⟨'9', 'S'⟩, ⟨'5', 'D'⟩, ⟨'J', 'S'⟩, ⟨'Q', 'C'⟩]⟩ : Game).pot ∧
      balSum (⟨none, none, [("w", ⟨"n", 10, 0⟩)], 10, 1,
        [⟨[⟨'3', 'C'⟩, ⟨'9', 'S'⟩, ⟨'5', 'D'⟩, ⟨'J', 'S'⟩, ⟨'Q', 'C'⟩],
          [("w", ⟨none, 10⟩)]⟩]⟩ : Room).players
        = balSum [("w", ⟨"n", 0, 0⟩)] + paySum cg.players :=
  c4_pay_winners_conservation
    ⟨[⟨"w", 0, some 10, false⟩], 10, 3,
      [⟨'A', 'H'⟩, ⟨'A', 'S'⟩, ⟨'3', 'C'⟩, ⟨'9', 'S'⟩, ⟨'5', 'D'⟩, ⟨'J', 'S'⟩, ⟨'Q', 'C'⟩]⟩
    ⟨none, none, [("w", ⟨"n", 0, 0⟩)], 10, 1, []⟩
    _ _ (by rfl)

/-- C3: in each iteration of the showdown payout loop, the amount
credited per winner is (minimum eligibility among that round's winners)
divided by the winner count with floor (Python //) division: when the
quotient is zero the iteration returns immediately, leaving the state —
in particular the pot, holding the remainder for the next hand — exactly
unchanged, and the loop stops with that state; otherwise every winner's
recorded payout grows by exactly that quotient. -/
theorem c3_payout_amount (st : PayState) (ws : List String) (eligs : List Int)
    (m : Int) (fuel : Nat)
    (hws : roundWinners st = some ws)
    (heligs : roundEligs st ws = some eligs)
    (hmin : eligs.min? = some m) :
    (m.fdiv (ws.length : Int) = 0 →
      payRound st = some (PayRes.done st) ∧
      (0 < st.pot → pay_loop (fuel + 1) st = some st)) ∧
    (∀ st', payRound st = some (PayRes.step st') → ws.Nodup →
      ∀ w ∈ ws, payoutIn st'.completed w
        = payoutIn st.completed w + m.fdiv (ws.length : Int)) := by
  constructor
  · intro h0
    have hdone : payRound st = some (PayRes.done st) := by
      unfold payRound
      split
      · rename_i heq
        rw [hws] at heq
        exact Option.noConfusion heq
      · rename_i ws2 heq
        rw [hws] at heq
        injection heq with heq
        subst heq
        split
        · rename_i heq2
          rw [heligs] at heq2
          exact Option.noConfusion heq2
        · rename_i eligs2 heq2
          rw [heligs] at heq2
          injection heq2 with heq2
          subst heq2
          split
          · rename_i heq3
            rw [hmin] at heq3
            exact Option.noConfusion heq3
          · rename_i m2 heq3
            rw [hmin] at heq3
            injection heq3 with heq3
            subst heq3
            rw [if_pos h0]
    refine ⟨hdone, fun hpot => ?_⟩
    unfold pay_loop
    rw [if_neg (by omega), hdone]
  · intro st' hstep hnd w hw
    unfold payRound at hstep
    split at hstep
    · exact Option.noConfusion hstep
    · rename_i ws2 heq
      rw [hws] at heq
      injection heq with heq
      subst heq
      split at hstep
      · exact Option.noConfusion hstep
      · rename_i eligs2 heq2
        rw [heligs] at heq2
        injection heq2 with heq2
        subst heq2
        split at hstep
        · exact Option.noConfusion hstep
        · rename_i m2 heq3
          rw [hmin] at heq3
          injection heq3 with heq3
          subst heq3
          split at hstep
          · injection hstep with hstep
            exact PayRes.noConfusion hstep
          · split at hstep
            · exact Option.noConfusion hstep
            · rename_i st1 hps
              cases hd : delAll st1.1.final_hands st1.2 with
              | none => rw [hd] at hstep; exact Option.noConfusion hstep
              | some fh2 =>
                rw [hd] at hstep
                simp only [Option.map_some'] at hstep
                injection hstep with hstep
                injection hstep with hstep
                obtain ⟨_, _, hwin, _⟩ := pay_winners_pass_sums _ _ _ _ _ _
                  (by rw [hps] : pay_winners_pass ws st (m.fdiv (ws.length : Int)) []
                    = some (st1.1, st1.2))
                have hcomp : st'.completed = st1.1.completed := by
                  rw [← hstep]
                rw [hcomp]
                exact hwin hnd w hw

/-- Witness for c3_payout_amount: a single contender whose remaining
eligibility is zero; the amount is 0 fdiv 1 = 0, so the round returns the
state unchanged and the loop leaves the two remainder chips in the pot. -/
theorem c3_payout_amount_witness :
    ((0 : Int).fdiv ((1 : Nat) : Int) = 0 →
      payRound ⟨2, [⟨"w", 0, [], []⟩], [], [("w", ⟨"n", 0, 0⟩)]⟩
        = some (PayRes.done ⟨2, [⟨"w", 0, [], []⟩], [], [("w", ⟨"n", 0, 0⟩)]⟩) ∧
      ((0 : Int) < 2 →
        pay_loop 3 ⟨2, [⟨"w", 0, [], []⟩], [], [("w", ⟨"n", 0, 0⟩)]⟩
          = some ⟨2, [⟨"w", 0, [], []⟩], [], [("w", ⟨"n", 0, 0⟩)]⟩)) ∧
    (∀ st', payRound ⟨2, [⟨"w", 0, [], []⟩], [], [("w", ⟨"n", 0, 0⟩)]⟩
        = some (PayRes.step st') → (["w"] : List String).Nodup →
      ∀ w ∈ (["w"] : List String), payoutIn st'.completed w
        = payoutIn ([] : List (String × PlayerAfterGame)) w + (0 : Int).fdiv ((1 : Nat) : Int)) :=
  c3_payout_amount ⟨2, [⟨"w", 0, [], []⟩], [], [("w", ⟨"n", 0, 0⟩)]⟩
    ["w"] [0] 0 2 (by rfl) (by rfl) (by rfl)



/-! Claim C5: permutation invariance of the hand evaluator. -/

/-! Base lemmas for the permutation invariance of the evaluator. -/

theorem find?_congr {α : Type} (xs : List α) (p q : α → Bool)
    (h : ∀ x ∈ xs, p x = q x) : xs.find? p = xs.find? q := by
  induction xs with
  | nil => rfl
  | cons x xs ih =>
    by_cases hx : p x = true
    · rw [List.find?_cons_of_pos _ hx, List.find?_cons_of_pos _ (h x (by simp) ▸ hx)]
    · rw [List.find?_cons_of_neg _ hx,
        List.find?_cons_of_neg _ (by rw [← h x (by simp)]; exact hx)]
      exact ih (fun x hx => h x (by simp [hx]))

theorem all_congr {α : Type} (xs : List α) (p q : α → Bool)
    (h : ∀ x ∈ xs, p x = q x) : xs.all p = xs.all q := by
  induction xs with
  | nil => rfl
  | cons x xs ih =>
    simp only [List.all_cons, h x (by simp), ih (fun x hx => h x (by simp [hx]))]

theorem vmap_replicate (X : List Card) (v : Nat) :
    (value_groups X v).map Card.value = List.replicate (value_groups X v).length v := by
  rw [List.eq_replicate_iff]
  refine ⟨by simp, ?_⟩
  intro b hb
  obtain ⟨c, hc, rfl⟩ := List.mem_map.mp hb
  have := (List.mem_filter.mp hc).2
  simpa using this

theorem svmap_replicate (X : List Card) (v : Nat) (s : Char) :
    ((value_groups X v).filter (fun c => c.suit = s)).map Card.value
      = List.replicate ((value_groups X v).filter (fun c => c.suit = s)).length v := by
  rw [List.eq_replicate_iff]
  refine ⟨by simp, ?_⟩
  intro b hb
  obtain ⟨c, hc, rfl⟩ := List.mem_map.mp hb
  have := (List.mem_filter.mp (List.mem_filter.mp hc).1).2
  simpa using this

/-- The facts the rest of the evaluator reads off a bucket, derivable from
equal bucket lengths alone. -/
theorem vg_facts_of_len (X Y : List Card)
    (h : ∀ v, (value_groups X v).length = (value_groups Y v).length) :
    (∀ v, (value_groups X v).map Card.value = (value_groups Y v).map Card.value) ∧
    (∀ v, value_groups X v = [] ↔ value_groups Y v = []) ∧
    (∀ v, (value_groups X v).head?.map Card.value
      = (value_groups Y v).head?.map Card.value) := by
  have hmap : ∀ v, (value_groups X v).map Card.value = (value_groups Y v).map Card.value := by
    intro v
    rw [vmap_replicate, vmap_replicate, h v]
  refine ⟨hmap, ?_, ?_⟩
  · intro v
    rw [← List.length_eq_zero, ← List.length_eq_zero, h v]
  · intro v
    rw [← List.head?_map, ← List.head?_map, hmap v]

theorem vg_len_of_map_eq (X Y : List Card) (h : X.map Card.value = Y.map Card.value) :
    ∀ v, (value_groups X v).length = (value_groups Y v).length := by
  intro v
  have hx : (value_groups X v).length = (X.map Card.value).countP (fun b => b = v) := by
    rw [List.countP_map, value_groups, ← List.countP_eq_length_filter]
    rfl
  have hy : (value_groups Y v).length = (Y.map Card.value).countP (fun b => b = v) := by
    rw [List.countP_map, value_groups, ← List.countP_eq_length_filter]
    rfl
  rw [hx, hy, h]

theorem perm_vg_len (l l' : List Card) (hp : l.Perm l') :
    ∀ v, (value_groups l v).length = (value_groups l' v).length :=
  fun _ => (hp.filter _).length_eq

theorem perm_svg_len (l l' : List Card) (hp : l.Perm l') :
    ∀ v s, ((value_groups l v).filter (fun c => c.suit = s)).length
      = ((value_groups l' v).filter (fun c => c.suit = s)).length :=
  fun _ _ => (((hp.filter _)).filter _).length_eq

theorem suit_cards_map_eq (l l' : List Card) (hp : l.Perm l') (s : Char) :
    (suit_cards l s).map Card.value = (suit_cards l' s).map Card.value := by
  unfold suit_cards
  rw [List.map_flatMap, List.map_flatMap]
  refine congrArg _ (funext fun v => ?_)
  rw [svmap_replicate, svmap_replicate, perm_svg_len l l' hp v s]

theorem mkHand_sig (v : Nat) (C C' : List Card)
    (h : C.map Card.value = C'.map Card.value) :
    (mkHand v C).map Hand.sort_key = (mkHand v C').map Hand.sort_key := by
  have hlen : C.length = C'.length := by
    rw [← List.length_map C Card.value, ← List.length_map C' Card.value, h]
  unfold mkHand
  by_cases h5 : C.length = 5
  · rw [if_pos h5, if_pos (hlen ▸ h5)]
    simp [Hand.sort_key, h]
  · rw [if_neg h5, if_neg (hlen ▸ h5)]



theorem straight_search_sig (g g' : Nat → List Card)
    (hne : ∀ v, g v = [] ↔ g' v = [])
    (hhead : ∀ v, (g v).head?.map Card.value = (g' v).head?.map Card.value) :
    ∀ fuel, (straight_search g fuel).map Hand.sort_key
      = (straight_search g' fuel).map Hand.sort_key := by
  intro fuel
  induction fuel with
  | zero => rfl
  | succ n ih =>
    have hcond : (straight_bounds (n + 3)).all (fun j => !(g j).isEmpty)
        = (straight_bounds (n + 3)).all (fun j => !(g' j).isEmpty) := by
      refine all_congr _ _ _ (fun j _ => ?_)
      have := hne j
      cases hgj : g j with
      | nil => simp [hgj, (hne j).mp hgj]
      | cons c cs =>
        cases hgj' : g' j with
        | nil => exact absurd ((hne j).mpr hgj') (by simp [hgj])
        | cons c' cs' => simp
    have hcards : ((straight_bounds (n + 3)).filterMap (fun j => (g j).head?)).map Card.value
        = ((straight_bounds (n + 3)).filterMap (fun j => (g' j).head?)).map Card.value := by
      rw [List.map_filterMap, List.map_filterMap]
      exact List.filterMap_congr (fun j _ => hhead j)
    unfold straight_search
    by_cases hc : (straight_bounds (n + 3)).all (fun j => !(g j).isEmpty) = true
    · rw [if_pos hc, if_pos (hcond ▸ hc)]
      exact mkHand_sig _ _ _ hcards
    · rw [if_neg hc, if_neg (fun hh => hc (hcond ▸ hh))]
      exact ih

theorem flush_groups_facts (l l' : List Card) (hp : l.Perm l') (s : Char) :
    (∀ v, value_groups (suit_cards l s) v = [] ↔ value_groups (suit_cards l' s) v = []) ∧
    (∀ v, (value_groups (suit_cards l s) v).head?.map Card.value
      = (value_groups (suit_cards l' s) v).head?.map Card.value) := by
  have hlen := vg_len_of_map_eq _ _ (suit_cards_map_eq l l' hp s)
  obtain ⟨_, hne, hhead⟩ := vg_facts_of_len _ _ hlen
  exact ⟨hne, hhead⟩

theorem get_flushes_sig (l l' : List Card) (hp : l.Perm l') :
    (get_flushes l).map Hand.sort_key = (get_flushes l').map Hand.sort_key := by
  unfold get_flushes
  have hfind : (['S', 'H', 'C', 'D'].find? (fun s => 5 ≤ (suit_cards l s).length))
      = (['S', 'H', 'C', 'D'].find? (fun s => 5 ≤ (suit_cards l' s).length)) := by
    refine find?_congr _ _ _ (fun s _ => ?_)
    have : (suit_cards l s).length = (suit_cards l' s).length := by
      rw [← List.length_map _ Card.value, ← List.length_map _ Card.value,
        suit_cards_map_eq l l' hp s]
    rw [this]
  rw [← hfind]
  cases hf : ['S', 'H', 'C', 'D'].find? (fun s => 5 ≤ (suit_cards l s).length) with
  | none => rfl
  | some s =>
    obtain ⟨hne, hhead⟩ := flush_groups_facts l l' hp s
    have hst := straight_search_sig _ _ hne hhead 10
    cases h1 : straight_search (value_groups (suit_cards l s)) 10 with
    | none =>
      cases h2 : straight_search (value_groups (suit_cards l' s)) 10 with
      | none =>
        simp only [get_straight, h1, h2]
        refine mkHand_sig _ _ _ ?_
        rw [List.map_take, List.map_take, suit_cards_map_eq l l' hp s]
      | some st' =>
        rw [h1, h2] at hst
        exact Option.noConfusion hst
    | some st =>
      cases h2 : straight_search (value_groups (suit_cards l' s)) 10 with
      | none =>
        rw [h1, h2] at hst
        exact Option.noConfusion hst
      | some st' =>
        simp only [get_straight, h1, h2]
        rw [h1, h2] at hst
        simp only [Option.map_some'] at hst
        injection hst with hst
        refine mkHand_sig _ _ _ ?_
        exact congrArg Prod.snd hst



theorem lengths_bucket_map_eq (l l' : List Card) (hp : l.Perm l') (k : Nat) :
    (lengths_bucket l k).map Card.value = (lengths_bucket l' k).map Card.value := by
  unfold lengths_bucket
  rw [List.map_flatMap, List.map_flatMap]
  refine congrArg _ (funext fun v => ?_)
  have hlen := perm_vg_len l l' hp v
  by_cases hk : (value_groups l v).length = k + 1
  · rw [if_pos hk, if_pos (hlen ▸ hk), vmap_replicate, vmap_replicate, hlen]
  · rw [if_neg hk, if_neg (fun hh => hk (hlen ▸ hh))]

theorem lengths_bucket_len_eq (l l' : List Card) (hp : l.Perm l') (k : Nat) :
    (lengths_bucket l k).length = (lengths_bucket l' k).length := by
  rw [← List.length_map _ Card.value, ← List.length_map _ Card.value,
    lengths_bucket_map_eq l l' hp k]

theorem kicker_fold_sig (g g' : Nat → List Card)
    (hne : ∀ v, g v = [] ↔ g' v = [])
    (hhead : ∀ v, (g v).head?.map Card.value = (g' v).head?.map Card.value)
    (v0 : Nat) :
    ∀ (xs : List Nat) (acc acc' : Option Card),
      acc.map Card.value = acc'.map Card.value →
      (xs.foldl (fun acc v => match (g v).head? with
        | none => acc
        | some c => if c.value = v0 then acc else some c) acc).map Card.value
      = (xs.foldl (fun acc v => match (g' v).head? with
        | none => acc
        | some c => if c.value = v0 then acc else some c) acc').map Card.value := by
  intro xs
  induction xs with
  | nil =>
    intro acc acc' h
    exact h
  | cons v vs ih =>
    intro acc acc' h
    simp only [List.foldl_cons]
    cases hgv : (g v).head? with
    | none =>
      have hgv' : (g' v).head? = none := by
        have := hhead v
        rw [hgv] at this
        cases hx : (g' v).head? with
        | none => rfl
        | some c' => rw [hx] at this; exact Option.noConfusion this
      rw [hgv']
      exact ih _ _ h
    | some c =>
      have hmapv := hhead v
      rw [hgv] at hmapv
      cases hx : (g' v).head? with
      | none =>
        rw [hx] at hmapv
        exact Option.noConfusion hmapv
      | some c' =>
        rw [hx] at hmapv
        simp only [Option.map_some'] at hmapv
        injection hmapv with hcv
        have haccs : (if c.value = v0 then acc else some c).map Card.value
            = (if c'.value = v0 then acc' else some c').map Card.value := by
          by_cases hv0 : c.value = v0
          · rw [if_pos hv0, if_pos (hcv ▸ hv0)]
            exact h
          · rw [if_neg hv0, if_neg (fun hh => hv0 (hcv ▸ hh))]
            simp [hcv]
        exact ih _ _ haccs

theorem quad_kicker_sig (l l' : List Card) (hp : l.Perm l') (v0 : Nat) :
    (quad_kicker l v0).map Card.value = (quad_kicker l' v0).map Card.value := by
  obtain ⟨_, hne, hhead⟩ := vg_facts_of_len l l' (perm_vg_len l l' hp)
  exact kicker_fold_sig (value_groups l) (value_groups l') hne hhead v0 (List.range 13) none none rfl



theorem get_matched_below_quad_sig (l l' : List Card) (hp : l.Perm l') :
    (get_matched_below_quad l).map Hand.sort_key
      = (get_matched_below_quad l').map Hand.sort_key := by
  have hlb := fun k => lengths_bucket_map_eq l l' hp k
  have hlbl := fun k => lengths_bucket_len_eq l l' hp k
  have hhd0 : ((lengths_bucket l 0).head?).map Card.value
      = ((lengths_bucket l' 0).head?).map Card.value := by
    rw [← List.head?_map, ← List.head?_map, hlb 0]
  unfold get_matched_below_quad
  by_cases hfh2 : 3 < (lengths_bucket l 2).length
  · rw [if_pos hfh2, if_pos (show 3 < (lengths_bucket l' 2).length from hlbl 2 ▸ hfh2)]
    refine mkHand_sig _ _ _ ?_
    rw [List.map_take, List.map_take, hlb 2]
  · have hfh2' : ¬ 3 < (lengths_bucket l' 2).length := fun hh => hfh2 (hlbl 2 ▸ hh)
    rw [if_neg hfh2, if_neg hfh2']
    have hne2 : lengths_bucket l 2 = [] ↔ lengths_bucket l' 2 = [] := by
      rw [← List.length_eq_zero, ← List.length_eq_zero, hlbl 2]
    have hne1 : lengths_bucket l 1 = [] ↔ lengths_bucket l' 1 = [] := by
      rw [← List.length_eq_zero, ← List.length_eq_zero, hlbl 1]
    by_cases hfull : lengths_bucket l 2 ≠ [] ∧ lengths_bucket l 1 ≠ []
    · have hfull' : lengths_bucket l' 2 ≠ [] ∧ lengths_bucket l' 1 ≠ [] :=
        ⟨fun hh => hfull.1 (hne2.mpr hh), fun hh => hfull.2 (hne1.mpr hh)⟩
      rw [if_pos hfull, if_pos hfull']
      refine mkHand_sig _ _ _ ?_
      rw [List.map_append, List.map_append, List.map_take, List.map_take, hlb 2, hlb 1]
    · have hfull' : ¬ (lengths_bucket l' 2 ≠ [] ∧ lengths_bucket l' 1 ≠ []) :=
        fun hh => hfull ⟨fun h2 => hh.1 (hne2.mp h2), fun h1 => hh.2 (hne1.mp h1)⟩
      rw [if_neg hfull, if_neg hfull']
      by_cases hset : lengths_bucket l 2 ≠ []
      · have hset' : lengths_bucket l' 2 ≠ [] := fun hh => hset (hne2.mpr hh)
        rw [if_pos hset, if_pos hset']
        refine mkHand_sig _ _ _ ?_
        rw [List.map_append, List.map_append, List.map_take, List.map_take, hlb 2, hlb 0]
      · have hset' : ¬ lengths_bucket l' 2 ≠ [] := fun hh => hset (fun h2 => hh (hne2.mp h2))
        rw [if_neg hset, if_neg hset']
        by_cases h3p : 4 < (lengths_bucket l 1).length
        · rw [if_pos h3p, if_pos (show 4 < (lengths_bucket l' 1).length from hlbl 1 ▸ h3p)]
          have hget : ((lengths_bucket l 1).get? 4).map Card.value
              = ((lengths_bucket l' 1).get? 4).map Card.value := by
            rw [List.get?_eq_getElem?, List.get?_eq_getElem?,
              ← List.getElem?_map, ← List.getElem?_map, hlb 1]
          cases hga : (lengths_bucket l 1).get? 4 with
          | none =>
            have hga' : (lengths_bucket l' 1).get? 4 = none := by
              rw [hga] at hget
              cases hx : (lengths_bucket l' 1).get? 4 with
              | none => rfl
              | some b => rw [hx] at hget; exact Option.noConfusion hget
            rw [hga']
          | some a =>
            rw [hga] at hget
            cases hga' : (lengths_bucket l' 1).get? 4 with
            | none => rw [hga'] at hget; exact Option.noConfusion hget
            | some a' =>
              rw [hga'] at hget
              simp only [Option.map_some'] at hget
              injection hget with hav
              cases hhb : (lengths_bucket l 0).head? with
              | none =>
                have hhb' : (lengths_bucket l' 0).head? = none := by
                  rw [hhb] at hhd0
                  cases hx : (lengths_bucket l' 0).head? with
                  | none => rfl
                  | some b => rw [hx] at hhd0; exact Option.noConfusion hhd0
                rw [hhb']
              | some b =>
                rw [hhb] at hhd0
                cases hhb' : (lengths_bucket l' 0).head? with
                | none => rw [hhb'] at hhd0; exact Option.noConfusion hhd0
                | some b' =>
                  rw [hhb'] at hhd0
                  simp only [Option.map_some'] at hhd0
                  injection hhd0 with hbv
                  refine mkHand_sig _ _ _ ?_
                  rw [List.map_append, List.map_append, List.map_take, List.map_take, hlb 1]
                  refine congrArg _ ?_
                  by_cases hab : a.value < b.value
                  · rw [if_pos hab, if_pos (show a'.value < b'.value from hav ▸ hbv ▸ hab)]
                    simp [hbv]
                  · rw [if_neg hab,
                      if_neg (show ¬ a'.value < b'.value from fun hh => hab (hav ▸ hbv ▸ hh))]
                    simp [hav]
        · have h3p' : ¬ 4 < (lengths_bucket l' 1).length := fun hh => h3p (hlbl 1 ▸ hh)
          rw [if_neg h3p, if_neg h3p']
          by_cases h2p : 2 < (lengths_bucket l 1).length
          · rw [if_pos h2p, if_pos (show 2 < (lengths_bucket l' 1).length from hlbl 1 ▸ h2p)]
            cases hhb : (lengths_bucket l 0).head? with
            | none =>
              have hhb' : (lengths_bucket l' 0).head? = none := by
                rw [hhb] at hhd0
                cases hx : (lengths_bucket l' 0).head? with
                | none => rfl
                | some b => rw [hx] at hhd0; exact Option.noConfusion hhd0
              rw [hhb']
            | some b =>
              rw [hhb] at hhd0
              cases hhb' : (lengths_bucket l' 0).head? with
              | none => rw [hhb'] at hhd0; exact Option.noConfusion hhd0
              | some b' =>
                rw [hhb'] at hhd0
                simp only [Option.map_some'] at hhd0
                injection hhd0 with hbv
                refine mkHand_sig _ _ _ ?_
                rw [List.map_append, List.map_append, List.map_take, List.map_take, hlb 1]
                simp [hbv]
          · have h2p' : ¬ 2 < (lengths_bucket l' 1).length := fun hh => h2p (hlbl 1 ▸ hh)
            rw [if_neg h2p, if_neg h2p']
            by_cases hpair : lengths_bucket l 1 ≠ []
            · have hpair' : lengths_bucket l' 1 ≠ [] := fun hh => hpair (hne1.mpr hh)
              rw [if_pos hpair, if_pos hpair']
              refine mkHand_sig _ _ _ ?_
              rw [List.map_append, List.map_append, List.map_take, List.map_take, hlb 1, hlb 0]
            · have hpair' : ¬ lengths_bucket l' 1 ≠ [] :=
                fun hh => hpair (fun h1 => hh (hne1.mp h1))
              rw [if_neg hpair, if_neg hpair']
              refine mkHand_sig _ _ _ ?_
              rw [List.map_take, List.map_take, hlb 0]

theorem get_matched_values_sig (l l' : List Card) (hp : l.Perm l') :
    (get_matched_values l).map Hand.sort_key = (get_matched_values l').map Hand.sort_key := by
  have hlb := fun k => lengths_bucket_map_eq l l' hp k
  have hlbl := fun k => lengths_bucket_len_eq l l' hp k
  cases h3 : lengths_bucket l 3 with
  | nil =>
    have h3' : lengths_bucket l' 3 = [] := by
      rw [← List.length_eq_zero, ← hlbl 3, h3]
      rfl
    have hL : get_matched_values l = get_matched_below_quad l := by
      unfold get_matched_values
      rw [h3]
    have hR : get_matched_values l' = get_matched_below_quad l' := by
      unfold get_matched_values
      rw [h3']
    rw [hL, hR]
    exact get_matched_below_quad_sig l l' hp
  | cons c0 t =>
    cases h3' : lengths_bucket l' 3 with
    | nil =>
      exfalso
      have hcontra := hlbl 3
      rw [h3, h3'] at hcontra
      simp at hcontra
    | cons c0' t' =>
      have hv0 : c0.value = c0'.value := by
        have hmv := hlb 3
        rw [h3, h3'] at hmv
        simp only [List.map_cons, List.cons.injEq] at hmv
        exact hmv.1
      have hL : get_matched_values l
          = match quad_kicker l c0.value with
            | none => none
            | some k => mkHand Value.QUAD ((c0 :: t) ++ [k]) := by
        unfold get_matched_values
        rw [h3]
      have hR : get_matched_values l'
          = match quad_kicker l' c0'.value with
            | none => none
            | some k => mkHand Value.QUAD ((c0' :: t') ++ [k]) := by
        unfold get_matched_values
        rw [h3']
      rw [hL, hR]
      have hkick : (quad_kicker l c0.value).map Card.value
          = (quad_kicker l' c0'.value).map Card.value := by
        rw [← hv0]
        exact quad_kicker_sig l l' hp c0.value
      cases hk : quad_kicker l c0.value with
      | none =>
        have hk' : quad_kicker l' c0'.value = none := by
          rw [hk] at hkick
          cases hx : quad_kicker l' c0'.value with
          | none => rfl
          | some k' => rw [hx] at hkick; exact Option.noConfusion hkick
        rw [hk']
      | some k =>
        rw [hk] at hkick
        cases hk' : quad_kicker l' c0'.value with
        | none => rw [hk'] at hkick; exact Option.noConfusion hkick
        | some k' =>
          rw [hk'] at hkick
          simp only [Option.map_some'] at hkick
          injection hkick with hkv
          refine mkHand_sig _ _ _ ?_
          have hm3 := hlb 3
          rw [h3, h3'] at hm3
          rw [List.map_append, List.map_append, hm3]
          simp [hkv]



/-- C5: the evaluator's output position is invariant under any permutation
of its input cards: for every duplicate-free sequence of 5 to 9 valid
cards and every permutation of it, find_best_hand yields the same ranked
value and the same tie-break key (Hand.sort_key, the pair of the rank
category and the card-value list that orders hands).  The validity,
duplicate-freedom and length bounds delimit the domain on which the
Python source runs without an uncaught exception of an unrelated kind;
the invariance proof itself never uses them. -/
theorem c5_find_best_hand_perm_invariant (l l' : List Card) (hp : l.Perm l')
    (hv : ∀ c ∈ l, ValidCard c) (hnd : l.Nodup)
    (h5 : 5 ≤ l.length) (h9 : l.length ≤ 9) :
    (find_best_hand l).map Hand.sort_key = (find_best_hand l').map Hand.sort_key := by
  have hfl := get_flushes_sig l l' hp
  unfold find_best_hand
  cases hf : get_flushes l with
  | some h =>
    cases hf' : get_flushes l' with
    | none =>
      rw [hf, hf'] at hfl
      exact Option.noConfusion hfl
    | some h' =>
      rw [hf, hf'] at hfl
      exact hfl
  | none =>
    cases hf' : get_flushes l' with
    | some h' =>
      rw [hf, hf'] at hfl
      exact Option.noConfusion hfl
    | none =>
      have hm := get_matched_values_sig l l' hp
      cases hmv : get_matched_values l with
      | none =>
        have hmv' : get_matched_values l' = none := by
          rw [hmv] at hm
          cases hx : get_matched_values l' with
          | none => rfl
          | some m' => rw [hx] at hm; exact Option.noConfusion hm
        rw [hmv']
      | some m =>
        rw [hmv] at hm
        cases hmv' : get_matched_values l' with
        | none =>
          rw [hmv'] at hm
          exact Option.noConfusion hm
        | some m' =>
          rw [hmv'] at hm
          simp only [Option.map_some'] at hm
          injection hm with hsk
          have hvv : m.value = m'.value := congrArg Prod.fst hsk
          show Option.map Hand.sort_key
              (if m.value = Value.QUAD ∨ m.value = Value.FULL_HOUSE then some m
               else match get_straight (value_groups l) with
                 | some h => some h
                 | none => some m)
            = Option.map Hand.sort_key
              (if m'.value = Value.QUAD ∨ m'.value = Value.FULL_HOUSE then some m'
               else match get_straight (value_groups l') with
                 | some h => some h
                 | none => some m')
          by_cases hq : m.value = Value.QUAD ∨ m.value = Value.FULL_HOUSE
          · rw [if_pos hq, if_pos (show m'.value = Value.QUAD ∨ m'.value = Value.FULL_HOUSE from hvv ▸ hq)]
            simp [hsk]
          · rw [if_neg hq,
              if_neg (show ¬ (m'.value = Value.QUAD ∨ m'.value = Value.FULL_HOUSE) from
                fun hh => hq (hvv ▸ hh))]
            obtain ⟨_, hne, hhead⟩ := vg_facts_of_len l l' (perm_vg_len l l' hp)
            have hst := straight_search_sig _ _ hne hhead 10
            cases h1 : straight_search (value_groups l) 10 with
            | none =>
              cases h2 : straight_search (value_groups l') 10 with
              | none =>
                simp only [get_straight, h1, h2]
                simp [hsk]
              | some st' =>
                rw [h1, h2] at hst
                exact Option.noConfusion hst
            | some st =>
              cases h2 : straight_search (value_groups l') 10 with
              | none =>
                rw [h1, h2] at hst
                exact Option.noConfusion hst
              | some st' =>
                simp only [get_straight, h1, h2]
                rw [h1, h2] at hst
                exact hst

/-- Witness for c5_find_best_hand_perm_invariant: a seven-card hand and a
permutation of it, both evaluating to the same ace-high-straight key. -/
theorem c5_find_best_hand_perm_invariant_witness :
    (find_best_hand [⟨'A', 'S'⟩, ⟨'K', 'H'⟩, ⟨'Q', 'D'⟩, ⟨'J', 'C'⟩, ⟨'X', 'S'⟩,
        ⟨'5', 'H'⟩, ⟨'5', 'D'⟩]).map Hand.sort_key
      = (find_best_hand [⟨'5', 'D'⟩, ⟨'X', 'S'⟩, ⟨'K', 'H'⟩, ⟨'A', 'S'⟩, ⟨'5', 'H'⟩,
        ⟨'Q', 'D'⟩, ⟨'J', 'C'⟩]).map Hand.sort_key :=
  c5_find_best_hand_perm_invariant _ _ (by decide) (by decide) (by decide)
    (by decide) (by decide)


end Poker
